import Mathlib

/-!
Shallow embedding of the `synapse-room-preview` module
(`src/synapse_room_preview/`): the room-preview aggregation, caching and
enrichment pipeline (`get_room_preview.py`) and the sliding-window rate
limiter (`is_rate_limited.py`), together with proofs about the claims on
this code.

Python dictionaries are modelled as association lists (`List (String × α)`)
with first-occurrence lookup and in-place update (`setKey`): an existing key
keeps its position, a new key is appended, mirroring CPython insertion-order
semantics.  JSON values are modelled by the inductive `Json`.  Wall-clock
time is a `Nat` passed explicitly; one call of a Python function observes a
single `now` (the source calls `time.time()` several times within one call,
always within the same instant for the properties considered here).
-/

namespace RoomPreview

/-- Parsed JSON values, as produced by `json.loads` on the `event_json.json`
column and as carried inside Matrix events. -/
inductive Json where
  | null : Json
  | bool : Bool → Json
  | num : Int → Json
  | str : String → Json
  | arr : List Json → Json
  | obj : List (String × Json) → Json

/-- Python truthiness of a JSON value (`if value:`). -/
def Json.truthy : Json → Bool
  | .null => false
  | .bool b => b
  | .num n => n != 0
  | .str s => s != ""
  | .arr l => !l.isEmpty
  | .obj l => !l.isEmpty

mutual

/-- Structural boolean equality on `Json` (Python `==`). -/
def Json.beq : Json → Json → Bool
  | .null, .null => true
  | .bool a, .bool b => a == b
  | .num a, .num b => a == b
  | .str a, .str b => a == b
  | .arr a, .arr b => Json.beqList a b
  | .obj a, .obj b => Json.beqObj a b
  | _, _ => false

/-- Elementwise `Json.beq` on lists. -/
def Json.beqList : List Json → List Json → Bool
  | [], [] => true
  | x :: xs, y :: ys => Json.beq x y && Json.beqList xs ys
  | _, _ => false

/-- Elementwise `Json.beq` on objects (key plus value). -/
def Json.beqObj : List (String × Json) → List (String × Json) → Bool
  | [], [] => true
  | (k, v) :: xs, (k', v') :: ys => k == k' && Json.beq v v' && Json.beqObj xs ys
  | _, _ => false

end

theorem Json.beqList_sound
    (ih : ∀ x ∈ as, ∀ y : Json, Json.beq x y = true → x = y) :
    ∀ bs, Json.beqList as bs = true → as = bs := by
  induction as with
  | nil => intro bs h; cases bs with
    | nil => rfl
    | cons b bs => simp [Json.beqList] at h
  | cons a as tih =>
    intro bs h
    cases bs with
    | nil => simp [Json.beqList] at h
    | cons b bs =>
      simp only [Json.beqList, Bool.and_eq_true] at h
      have h1 := ih a (List.mem_cons_self a as) b h.1
      have h2 := tih (fun x hx y => ih x (List.mem_cons_of_mem a hx) y) bs h.2
      rw [h1, h2]

theorem Json.beqObj_sound
    (ih : ∀ x ∈ as, ∀ y : Json, Json.beq x.2 y = true → x.2 = y) :
    ∀ bs, Json.beqObj as bs = true → as = bs := by
  induction as with
  | nil => intro bs h; cases bs with
    | nil => rfl
    | cons b bs => simp [Json.beqObj] at h
  | cons a as tih =>
    intro bs h
    cases bs with
    | nil => simp [Json.beqObj] at h
    | cons b bs =>
      obtain ⟨k, v⟩ := a
      obtain ⟨k', v'⟩ := b
      simp only [Json.beqObj, Bool.and_eq_true, beq_iff_eq] at h
      have h1 := ih (k, v) (List.mem_cons_self _ as) v' h.1.2
      have h2 := tih (fun x hx y => ih x (List.mem_cons_of_mem _ hx) y) bs h.2
      simp only at h1
      rw [h.1.1, h1, h2]

theorem Json.beq_sound : ∀ (n : Nat) (a b : Json), sizeOf a ≤ n →
    Json.beq a b = true → a = b := by
  intro n
  induction n with
  | zero => intro a b hs; cases a <;> simp at hs
  | succ n ihn =>
    intro a b hs hbeq
    cases a <;> cases b <;> simp [Json.beq] at hbeq ⊢
    case bool.bool => exact hbeq
    case num.num => exact hbeq
    case str.str => exact hbeq
    case arr.arr as bs =>
      refine Json.beqList_sound (fun x hx y hy => ihn x y ?_ hy) bs hbeq
      have hlt := List.sizeOf_lt_of_mem hx
      simp at hs
      omega
    case obj.obj as bs =>
      refine Json.beqObj_sound (fun x hx y hy => ihn x.2 y ?_ hy) bs hbeq
      have hlt := List.sizeOf_lt_of_mem hx
      obtain ⟨k, v⟩ := x
      simp at hs hlt ⊢
      omega

theorem Json.beqList_refl (ih : ∀ x ∈ as, Json.beq x x = true) :
    Json.beqList as as = true := by
  induction as with
  | nil => rfl
  | cons a as tih =>
    simp only [Json.beqList, Bool.and_eq_true]
    exact ⟨ih a (List.mem_cons_self a as),
      tih (fun x hx => ih x (List.mem_cons_of_mem a hx))⟩

theorem Json.beqObj_refl (ih : ∀ x ∈ as, Json.beq x.2 x.2 = true) :
    Json.beqObj as as = true := by
  induction as with
  | nil => rfl
  | cons a as tih =>
    obtain ⟨k, v⟩ := a
    simp only [Json.beqObj, Bool.and_eq_true, beq_iff_eq]
    refine ⟨⟨by trivial, ih (k, v) (List.mem_cons_self _ as)⟩,
      tih (fun x hx => ih x (List.mem_cons_of_mem _ hx))⟩

theorem Json.beq_refl : ∀ (n : Nat) (a : Json), sizeOf a ≤ n →
    Json.beq a a = true := by
  intro n
  induction n with
  | zero => intro a hs; cases a <;> simp at hs
  | succ n ihn =>
    intro a hs
    cases a <;> simp [Json.beq]
    case arr as =>
      refine Json.beqList_refl (fun x hx => ihn x ?_)
      have hlt := List.sizeOf_lt_of_mem hx
      simp at hs
      omega
    case obj as =>
      refine Json.beqObj_refl (fun x hx => ihn x.2 ?_)
      have hlt := List.sizeOf_lt_of_mem hx
      obtain ⟨k, v⟩ := x
      simp at hs hlt ⊢
      omega

instance : DecidableEq Json := fun a b =>
  if h : Json.beq a b = true then
    isTrue (Json.beq_sound (sizeOf a) a b le_rfl h)
  else
    isFalse (fun e => h (e ▸ Json.beq_refl (sizeOf a) a le_rfl))

/-- First-occurrence lookup in an association list (`d.get(k)` /
`k in d`). -/
def getKey? (l : List (String × α)) (k : String) : Option α :=
  match l with
  | [] => none
  | (k', v) :: rest => if k' = k then some v else getKey? rest k

/-- Python dict assignment `d[k] = v`: replace the value at an existing key
in place, append a fresh key at the end. -/
def setKey (l : List (String × α)) (k : String) (v : α) : List (String × α) :=
  match l with
  | [] => [(k, v)]
  | (k', v') :: rest => if k' = k then (k, v) :: rest else (k', v') :: setKey rest k v

/-- Python `del d[k]` / `d.pop(k, None)`. -/
def eraseKey (l : List (String × α)) (k : String) : List (String × α) :=
  l.filter (fun e => !(decide (e.1 = k)))

/-- Keys of an association list. -/
def keysOf (l : List (String × α)) : List String := l.map Prod.fst

/-! Constants from `constants.py` and `get_room_preview.py`. -/

def EVENT_TYPE_M_ROOM_JOIN_RULES : String := "m.room.join_rules"
def JOIN_RULE_CONTENT_KEY : String := "join_rule"
def EVENT_TYPE_M_ROOM_MEMBER : String := "m.room.member"
def MEMBERSHIP_CONTENT_KEY : String := "membership"
/-- Imported by `get_room_preview.py` from `constants.py`; its definition
line is not in the copy of `constants.py` here, but the repository's tests
pin the tracked type name `"pangea.activity_roles"`. -/
def PANGEA_ACTIVITY_ROLE_STATE_EVENT_TYPE : String := "pangea.activity_roles"
def CACHE_TTL_SECONDS : Nat := 300

/-- Module configuration (`SynapseRoomPreviewConfig` in `__init__.py`). -/
structure SynapseRoomPreviewConfig where
  room_preview_state_event_types : List String
  burst_duration_seconds : Nat
  requests_per_burst : Nat
  deriving DecidableEq

/-! ## Rate limiter (`is_rate_limited.py`)

`request_log` is the module-level `Dict[str, List[float]]`; it is threaded
explicitly.  `is_rate_limited` returns `true` when the request is refused. -/

abbrev RequestLog := List (String × List Nat)

/-- `is_rate_limited(user_id, config)` from `is_rate_limited.py`, with the
wall clock `now` and the global `request_log` made explicit.  Returns the
bool result together with the updated log.  Note `now - t` is truncated
`Nat` subtraction, which agrees with the Python float comparison
`current_time - timestamp <= burst_duration_seconds` whenever `t ≤ now`
(and also keeps any `t > now`, exactly as the Python code does). -/
def is_rate_limited (user_id : String) (config : SynapseRoomPreviewConfig)
    (now : Nat) (log : RequestLog) : Bool × RequestLog :=
  let window := (getKey? log user_id).getD []
  let pruned := window.filter (fun t => decide (now - t ≤ config.burst_duration_seconds))
  if config.requests_per_burst ≤ pruned.length then
    (true, setKey log user_id pruned)
  else
    (false, setKey log user_id (pruned ++ [now]))

/-- Run a sequence of `is_rate_limited` calls for one user at the given
times; collect the results (in order) and the final log. -/
def runCalls (user_id : String) (config : SynapseRoomPreviewConfig) :
    List Nat → RequestLog → List Bool × RequestLog
  | [], log => ([], log)
  | t :: ts, log =>
    let (b, log') := is_rate_limited user_id config t log
    let (bs, log'') := runCalls user_id config ts log'
    (b :: bs, log'')

/-! ## Join-rules content redaction (`_filter_join_rules_content`) -/

/-- `_filter_join_rules_content(event_data)`: for a dict event with a dict
(or absent, defaulting to `{}`) content, replace `content` by a copy holding
only the `join_rule` key; otherwise return the event unchanged. -/
def filter_join_rules_content (event_data : Json) : Json :=
  match event_data with
  | .obj fields =>
    match (getKey? fields "content").getD (.obj []) with
    | .obj cfields =>
      let filtered : List (String × Json) :=
        match getKey? cfields JOIN_RULE_CONTENT_KEY with
        | some v => [(JOIN_RULE_CONTENT_KEY, v)]
        | none => []
      .obj (setKey fields "content" (.obj filtered))
    | _ => event_data
  | _ => event_data

/-! ## Membership summary (`_get_membership_summary`, `_add_membership_summary`) -/

/-- Room state as returned by `api.get_room_state(room_id)`: a mapping from
`(event_type, state_key)` to the event.  Events are modelled as `Json`
(the source also accepts objects with a `content` attribute; both branches
read `content` and its `membership` key the same way). -/
abbrev RoomState := List ((String × String) × Json)

/-- The loop body of `_get_membership_summary`.  A member event that is a
dict with a non-dict `content` raises `AttributeError` in the source
(`content.get`), which the surrounding `try` converts into returning the
summary accumulated so far; that is the `.obj fields` / non-object-content
branch below. -/
def membershipLoop : RoomState → List (String × Json) → List (String × Json)
  | [], acc => acc
  | ((k, ev) :: rest), acc =>
    if k.1 = EVENT_TYPE_M_ROOM_MEMBER then
      match ev with
      | .obj fields =>
        match (getKey? fields "content").getD (.obj []) with
        | .obj cfields =>
          match getKey? cfields MEMBERSHIP_CONTENT_KEY with
          | some m =>
            if m.truthy then membershipLoop rest (setKey acc k.2 m)
            else membershipLoop rest acc
          | none => membershipLoop rest acc
        | _ => acc
      | _ => membershipLoop rest acc
    else
      membershipLoop rest acc

/-- `_get_membership_summary(room_id, api, room_store)`: the host call
`api.get_room_state` may fail (`Except.error`); the `except` clause logs and
returns the (then still empty) summary. -/
def get_membership_summary (st : Except String RoomState) : List (String × Json) :=
  match st with
  | .error _ => []
  | .ok evs => membershipLoop evs []

/-- Per-room payload.  In the source this is one Python dict in which state
event types and the `"membership_summary"` key live side by side; the
summary is kept as a separate optional field here (`none` = key absent). -/
structure RoomData where
  events : List (String × List (String × Json))
  membership_summary : Option (List (String × Json))
  deriving DecidableEq

/-- User ids collected from one activity-roles event:
`content["roles"]` values' `user_id` fields, truthy ones only. -/
def roleUsersOfEvent (event_data : Json) : List Json :=
  match event_data with
  | .obj fields =>
    match (getKey? fields "content").getD (.obj []) with
    | .obj cfields =>
      match (getKey? cfields "roles").getD (.obj []) with
      | .obj roles =>
        roles.foldl (fun acc e =>
          match e.2 with
          | .obj rfields =>
            match getKey? rfields "user_id" with
            | some uid => if uid.truthy then acc ++ [uid] else acc
            | none => acc
          | _ => acc) []
      | _ => []
    | _ => []
  | _ => []

/-- `user_ids_in_roles`: union over all events of the activity-roles type. -/
def roleUsers (activity_roles : List (String × Json)) : List Json :=
  activity_roles.foldl (fun acc e => acc ++ roleUsersOfEvent e.2) []

/-- `_add_membership_summary(room_data, membership_summary)`: no-op when the
room lacks the activity-roles event type; otherwise attach, as
`membership_summary`, the given summary restricted to users referenced in
the activity-role entries. -/
def add_membership_summary (room_data : RoomData) (ms : List (String × Json)) : RoomData :=
  match getKey? room_data.events PANGEA_ACTIVITY_ROLE_STATE_EVENT_TYPE with
  | none => room_data
  | some activity_roles =>
    let users := roleUsers activity_roles
    let filtered := ms.filter (fun e => users.any (fun j => Json.beq (Json.str e.1) j))
    { room_data with membership_summary := some filtered }

/-! ## The aggregation query (`get_room_preview`, lines 255-340)

The joined tables `events ⋈ state_events ⋈ event_json` are modelled as a
log of rows; the `state_events` join keeps exactly the state events
(`is_state`).  `json` carries the already-parsed `event_json.json` column
(the source applies `json.loads` to the string form). -/

structure Row where
  is_state : Bool
  room_id : String
  etype : String
  state_key : Option String
  origin_server_ts : Int
  event_id : String
  json : Json
  deriving DecidableEq

/-- The rows selected by both queries' WHERE clause: state events whose
room is among `rooms_to_fetch` and whose type is among the configured
tracked event types. -/
def selectedRows (log : List Row) (rooms_to_fetch : List String)
    (etypes : List String) : List Row :=
  log.filter (fun r =>
    r.is_state && decide (r.room_id ∈ rooms_to_fetch) && decide (r.etype ∈ etypes))

/-- A NULL-ordering encoding of the `state_key` column: SQLite sorts NULLs
first in ascending order. -/
def skeyNullsFirst : Option String → Bool × String
  | none => (false, "")
  | some s => (true, s)

/-- PostgreSQL sorts NULLs last in ascending order. -/
def skeyNullsLast : Option String → Bool × String
  | none => (true, "")
  | some s => (false, s)

/-- Byte-wise (code-point-wise) strict comparison of character lists, the
collation a SQL engine applies to TEXT columns. -/
def charListLt : List Char → List Char → Bool
  | [], [] => false
  | [], _ :: _ => true
  | _ :: _, [] => false
  | c :: cs, d :: ds =>
    if c.toNat < d.toNat then true
    else if d.toNat < c.toNat then false
    else charListLt cs ds

/-- Strict string comparison by code points. -/
def strLtb (a b : String) : Bool := charListLt a.data b.data

/-- The `ORDER BY e.room_id, e.type, e.state_key, e.origin_server_ts DESC`
comparison of both queries, as a boolean: lexicographic on room id, type
and (encoded) state key ascending, then timestamp descending.  There is no
further sort key, so rows that agree on all four columns compare equal both
ways. -/
def rowLEb (enc : Option String → Bool × String) (a b : Row) : Bool :=
  strLtb a.room_id b.room_id ||
  (a.room_id == b.room_id &&
    (strLtb a.etype b.etype ||
     (a.etype == b.etype &&
      ((!(enc a.state_key).1 && (enc b.state_key).1) ||
       (((enc a.state_key).1 == (enc b.state_key).1) &&
        (strLtb (enc a.state_key).2 (enc b.state_key).2 ||
         (((enc a.state_key).2 == (enc b.state_key).2) &&
          decide (b.origin_server_ts ≤ a.origin_server_ts))))))))

def rowLE (enc : Option String → Bool × String) (a b : Row) : Prop :=
  rowLEb enc a b = true

instance (enc : Option String → Bool × String) : DecidableRel (rowLE enc) :=
  fun a b => instDecidableEqBool (rowLEb enc a b) true

/-- A row list delivered by the database for a query: any permutation of the
selected rows that satisfies the ORDER BY clause.  The database is free to
order rows with fully equal sort keys arbitrarily. -/
def ValidRows (enc : Option String → Bool × String) (log : List Row)
    (rooms_to_fetch : List String) (etypes : List String) (rows : List Row) : Prop :=
  rows.Perm (selectedRows log rooms_to_fetch etypes) ∧ rows.Sorted (rowLE enc)

/-- Worker for `distinctOn`: walk the rows, keeping a row only when its
(room, type, state key) triple has not been seen yet. -/
def distinctOnGo : List Row → List (String × String × Option String) → List Row
  | [], _ => []
  | r :: rest, seen =>
    if (r.room_id, r.etype, r.state_key) ∈ seen then distinctOnGo rest seen
    else r :: distinctOnGo rest ((r.room_id, r.etype, r.state_key) :: seen)

/-- `SELECT DISTINCT ON (e.room_id, e.type, e.state_key)` (PostgreSQL
branch): keep the first row of each (room, type, state key) group. -/
def distinctOn (rows : List Row) : List Row := distinctOnGo rows []

/-- `state_key` normalization: `None` or `""` become `"default"`
(get_room_preview.py line 334). -/
def normKey : Option String → String
  | none => "default"
  | some s => if s = "" then "default" else s

/-- Per-room nested payload map being built by the row loop:
room id → event type → state key → event JSON. -/
abbrev FetchedMap := List (String × List (String × List (String × Json)))

/-- One iteration of the row-processing loop (lines 314-340): ensure the
room and event-type dicts exist, normalize the state key, redact
join-rules content and store the event. -/
def storeRow (acc : FetchedMap) (r : Row) : FetchedMap :=
  let roomMap := (getKey? acc r.room_id).getD []
  let typeMap := (getKey? roomMap r.etype).getD []
  let event_data :=
    if r.etype = EVENT_TYPE_M_ROOM_JOIN_RULES then filter_join_rules_content r.json
    else r.json
  setKey acc r.room_id (setKey roomMap r.etype (setKey typeMap (normKey r.state_key) event_data))

/-- `fetched_room_data` initialisation (lines 308-311): every room being
fetched is present with an empty map. -/
def initFetched (rooms_to_fetch : List String) : FetchedMap :=
  rooms_to_fetch.foldl (fun acc rid => setKey acc rid []) []

inductive Backend where
  | sqlite
  | postgres
  deriving DecidableEq

/-- Row processing per backend: the SQLite branch iterates over every
returned row (so for each (room, type, state key) group the row appearing
last in the delivered order ends up stored); the PostgreSQL branch's
`DISTINCT ON` already reduced each group to its first delivered row. -/
def processRows (backend : Backend) (rows : List Row)
    (rooms_to_fetch : List String) : FetchedMap :=
  match backend with
  | .sqlite => rows.foldl storeRow (initFetched rooms_to_fetch)
  | .postgres => (distinctOn rows).foldl storeRow (initFetched rooms_to_fetch)

/-! ## Cache (`_room_cache` and helpers) -/

/-- `_room_cache : {room_id: (data, timestamp)}`, threaded explicitly. -/
abbrev Cache := List (String × (RoomData × Nat))

/-- `_is_cache_valid(timestamp)`. -/
def is_cache_valid (now stamp : Nat) : Bool :=
  decide (now - stamp < CACHE_TTL_SECONDS)

/-- `_get_cached_room(room_id)`: the data if present and fresh; a stale
entry is deleted as a side effect and treated as absent. -/
def get_cached_room (now : Nat) (cache : Cache) (room_id : String) :
    Option RoomData × Cache :=
  match getKey? cache room_id with
  | some (data, stamp) =>
    if is_cache_valid now stamp then (some data, cache)
    else (none, eraseKey cache room_id)
  | none => (none, cache)

/-- `_cache_room_data(room_id, data)`. -/
def cache_room_data (cache : Cache) (room_id : String) (data : RoomData)
    (now : Nat) : Cache :=
  setKey cache room_id (data, now)

/-- `_cleanup_expired_cache()`. -/
def cleanup_expired_cache (now : Nat) (cache : Cache) : Cache :=
  cache.filter (fun e => !(decide (CACHE_TTL_SECONDS ≤ now - e.2.2)))

/-- `invalidate_room_cache(room_id)`. -/
def invalidate_room_cache (room_id : String) (cache : Cache) : Cache :=
  eraseKey cache room_id

/-- In-place mutation of a cached room's payload dict
(`_add_membership_summary(cached_data, ...)` mutates the object stored in
the cache): the entry's data is replaced, its timestamp untouched. -/
def updateCachedData (cache : Cache) (room_id : String) (data : RoomData) : Cache :=
  cache.map (fun e => if e.1 = room_id then (e.1, (data, e.2.2)) else e)

/-! ## `get_room_preview` -/

/-- The external collaborators of `get_room_preview`: the database
(`room_store.db_pool.execute` with the chosen engine) and the host's room
state API (`api.get_room_state`). -/
structure PreviewEnv where
  backend : Backend
  fetch : List String → List String → List Row
  get_room_state : String → Except String RoomState

/-- The per-room cache-check loop (lines 240-249): each requested room is
either served from cache (with its membership summary recomputed and
written back into the shared cached dict) or appended to
`rooms_to_fetch`. -/
def previewLoop (env : PreviewEnv) (now : Nat) :
    List String → List (String × RoomData) → List String → Cache →
    List (String × RoomData) × List String × Cache
  | [], result, rooms_to_fetch, cache => (result, rooms_to_fetch, cache)
  | room_id :: rest, result, rooms_to_fetch, cache =>
    match get_cached_room now cache room_id with
    | (some data, cache') =>
      let ms := get_membership_summary (env.get_room_state room_id)
      let data' := add_membership_summary data ms
      previewLoop env now rest (setKey result room_id data')
        rooms_to_fetch (updateCachedData cache' room_id data')
    | (none, cache') =>
      previewLoop env now rest result (rooms_to_fetch ++ [room_id]) cache'

/-- The enrichment-and-caching loop over `fetched_room_data`
(lines 342-351). -/
def enrichAndCache (env : PreviewEnv) (now : Nat) :
    FetchedMap → List (String × RoomData) → Cache →
    List (String × RoomData) × Cache
  | [], result, cache => (result, cache)
  | (room_id, em) :: rest, result, cache =>
    let ms := get_membership_summary (env.get_room_state room_id)
    let rd := add_membership_summary ⟨em, none⟩ ms
    enrichAndCache env now rest (setKey result room_id rd)
      (cache_room_data cache room_id rd now)

/-- `get_room_preview(rooms, api, room_store, config)`.  Returns the result
mapping, the updated cache, and the number of aggregation queries issued
against the event log (0 or 1; the fetch for all uncached rooms is one
batched query). -/
def get_room_preview (rooms : List String) (config : SynapseRoomPreviewConfig)
    (env : PreviewEnv) (now : Nat) (cache : Cache) :
    List (String × RoomData) × Cache × Nat :=
  if rooms = [] ∨ config.room_preview_state_event_types = [] then
    ([], cache, 0)
  else
    let cache1 := cleanup_expired_cache now cache
    let (result, rooms_to_fetch, cache2) := previewLoop env now rooms [] [] cache1
    if rooms_to_fetch = [] then (result, cache2, 0)
    else
      let rows := env.fetch rooms_to_fetch config.room_preview_state_event_types
      let fetched := processRows env.backend rows rooms_to_fetch
      let (result2, cache3) := enrichAndCache env now fetched result cache2
      (result2, cache3, 1)

/-! ## Association-list lemmas -/

theorem getKey?_setKey_self (l : List (String × α)) (k : String) (v : α) :
    getKey? (setKey l k v) k = some v := by
  induction l with
  | nil => simp [setKey, getKey?]
  | cons e rest ih =>
    by_cases h : e.1 = k
    · simp [setKey, getKey?, h]
    · simp [setKey, getKey?, h, ih]

theorem getKey?_setKey_ne (l : List (String × α)) {k k' : String} (v : α)
    (hne : k' ≠ k) : getKey? (setKey l k v) k' = getKey? l k' := by
  induction l with
  | nil => simp [setKey, getKey?, Ne.symm hne]
  | cons e rest ih =>
    obtain ⟨k1, v1⟩ := e
    by_cases h : k1 = k
    · rw [show setKey ((k1, v1) :: rest) k v = (k, v) :: rest from by
        simp [setKey, h]]
      rw [show getKey? ((k, v) :: rest) k' = getKey? rest k' from by
        simp [getKey?, Ne.symm hne]]
      rw [show getKey? ((k1, v1) :: rest) k' = getKey? rest k' from by
        simp [getKey?, h, Ne.symm hne]]
    · rw [show setKey ((k1, v1) :: rest) k v = (k1, v1) :: setKey rest k v from by
        simp [setKey, h]]
      by_cases h2 : k1 = k'
      · simp [getKey?, h2]
      · simp [getKey?, h2, ih]

theorem getKey?_none_iff (l : List (String × α)) (k : String) :
    getKey? l k = none ↔ k ∉ keysOf l := by
  induction l with
  | nil => simp [getKey?, keysOf]
  | cons e rest ih =>
    obtain ⟨k1, v1⟩ := e
    simp only [getKey?, keysOf, List.map_cons, List.mem_cons]
    by_cases h : k1 = k
    · simp [h]
    · simp only [h, if_false, ih]
      constructor
      · intro hk hmem
        rcases hmem with h1 | h1
        · exact h h1.symm
        · exact hk h1
      · intro hk hmem
        exact hk (Or.inr hmem)

theorem keysOf_setKey (l : List (String × α)) (k : String) (v : α) :
    keysOf (setKey l k v) = if k ∈ keysOf l then keysOf l else keysOf l ++ [k] := by
  induction l with
  | nil => simp [setKey, keysOf]
  | cons e rest ih =>
    obtain ⟨k1, v1⟩ := e
    by_cases h : k1 = k
    · subst h
      simp [setKey, keysOf]
    · rw [show setKey ((k1, v1) :: rest) k v = (k1, v1) :: setKey rest k v from by
        simp [setKey, h]]
      simp only [keysOf, List.map_cons] at ih ⊢
      rw [ih]
      by_cases h2 : k ∈ List.map Prod.fst rest
      · simp only [h2, if_true, List.mem_cons, or_true, if_pos]
      · rw [if_neg h2]
        have hnot : ¬ k ∈ k1 :: List.map Prod.fst rest := by
          rw [List.mem_cons]
          rintro (h3 | h3)
          · exact h h3.symm
          · exact h2 h3
        rw [if_neg hnot]
        simp

theorem nodup_keys_setKey (l : List (String × α)) (k : String) (v : α)
    (h : (keysOf l).Nodup) : (keysOf (setKey l k v)).Nodup := by
  rw [keysOf_setKey]
  by_cases h2 : k ∈ keysOf l
  · simpa [h2] using h
  · rw [if_neg h2]
    refine List.Nodup.append h (List.nodup_singleton k) ?_
    intro a ha hak
    rw [List.mem_singleton] at hak
    exact h2 (hak ▸ ha)

theorem getKey?_eraseKey_self (l : List (String × α)) (k : String) :
    getKey? (eraseKey l k) k = none := by
  induction l with
  | nil => simp [eraseKey, getKey?]
  | cons e rest ih =>
    by_cases h : e.1 = k
    · simpa [eraseKey, h] using ih
    · simpa [eraseKey, getKey?, h] using ih

theorem getKey?_filter_keeps (l : List (String × α)) (k : String)
    (p : String × α → Bool) (hp : ∀ e : String × α, e.1 = k → p e = true) :
    getKey? (l.filter p) k = getKey? l k := by
  induction l with
  | nil => simp [getKey?]
  | cons e rest ih =>
    obtain ⟨k1, v1⟩ := e
    by_cases h : k1 = k
    · rw [List.filter_cons, hp (k1, v1) h]
      simp [getKey?, h]
    · rw [List.filter_cons]
      by_cases h2 : p (k1, v1) = true
      · simp [h2, getKey?, h, ih]
      · rw [if_neg (by simp [h2]), ih]
        simp [getKey?, h]

theorem getKey?_eraseKey_ne (l : List (String × α)) {k k' : String}
    (hne : k' ≠ k) : getKey? (eraseKey l k) k' = getKey? l k' := by
  refine getKey?_filter_keeps l k' _ (fun e he => ?_)
  simp [he, hne]

theorem getKey?_filter_some (l : List (String × α)) (k : String) (v : α)
    (p : String × α → Bool) (hv : getKey? l k = some v) (hp : p (k, v) = true) :
    getKey? (l.filter p) k = some v := by
  induction l with
  | nil => simp [getKey?] at hv
  | cons e rest ih =>
    by_cases h : e.1 = k
    · simp only [getKey?, h, if_pos] at hv
      obtain ⟨k1, v1⟩ := e
      simp only at h
      subst h
      cases hv
      rw [List.filter_cons, hp]
      simp [getKey?]
    · simp only [getKey?, h, if_neg, not_false_iff] at hv
      rw [List.filter_cons]
      by_cases h2 : p e = true
      · simp [h2, getKey?, h, ih hv]
      · simp [h2, ih hv]

theorem getKey?_filter_none (l : List (String × α)) (k : String)
    (p : String × α → Bool) (hv : getKey? l k = none) :
    getKey? (l.filter p) k = none := by
  induction l with
  | nil => simp [getKey?]
  | cons e rest ih =>
    by_cases h : e.1 = k
    · simp [getKey?, h] at hv
    · simp only [getKey?, h, if_neg, not_false_iff] at hv
      rw [List.filter_cons]
      by_cases h2 : p e = true
      · simp [h2, getKey?, h, ih hv]
      · simp [h2, ih hv]

theorem nodup_keys_filter (l : List (String × α)) (p : String × α → Bool)
    (h : (keysOf l).Nodup) : (keysOf (l.filter p)).Nodup :=
  ((l.filter_sublist).map Prod.fst).nodup h

theorem updateCachedData_cons (e : String × RoomData × Nat) (rest : Cache)
    (k : String) (d : RoomData) :
    updateCachedData (e :: rest) k d =
      (if e.1 = k then (e.1, (d, e.2.2)) else e) :: updateCachedData rest k d := by
  simp [updateCachedData]

theorem getKey?_updateCachedData_self (c : Cache) (k : String) (d : RoomData) :
    getKey? (updateCachedData c k d) k = (getKey? c k).map (fun p => (d, p.2)) := by
  induction c with
  | nil => simp [updateCachedData, getKey?]
  | cons e rest ih =>
    obtain ⟨k1, s⟩ := e
    rw [updateCachedData_cons]
    by_cases h : k1 = k
    · rw [if_pos h]
      simp only [getKey?]
      rw [if_pos h, if_pos h]
      rfl
    · rw [if_neg h]
      simp only [getKey?]
      rw [if_neg h, if_neg h]
      exact ih

theorem getKey?_updateCachedData_ne (c : Cache) {k k' : String} (d : RoomData)
    (hne : k' ≠ k) : getKey? (updateCachedData c k d) k' = getKey? c k' := by
  induction c with
  | nil => simp [updateCachedData, getKey?]
  | cons e rest ih =>
    obtain ⟨k1, s⟩ := e
    rw [updateCachedData_cons]
    by_cases h : k1 = k
    · rw [if_pos h]
      simp only [getKey?]
      have hno : ¬ k1 = k' := fun h2 => hne (h ▸ h2.symm ▸ rfl)
      rw [if_neg hno, if_neg hno]
      exact ih
    · rw [if_neg h]
      simp only [getKey?]
      by_cases h2 : k1 = k'
      · rw [if_pos h2, if_pos h2]
      · rw [if_neg h2, if_neg h2]
        exact ih

/-! ## Rate-limiter lemmas -/

theorem runCalls_append (u : String) (config : SynapseRoomPreviewConfig)
    (l1 l2 : List Nat) (log : RequestLog) :
    runCalls u config (l1 ++ l2) log =
      ((runCalls u config l1 log).1 ++ (runCalls u config l2 (runCalls u config l1 log).2).1,
       (runCalls u config l2 (runCalls u config l1 log).2).2) := by
  induction l1 generalizing log with
  | nil => simp [runCalls]
  | cons t ts ih => simp [runCalls, ih]

/-- While the window (current contents `w`) plus the incoming calls all fit
inside one burst window and the total count stays within the limit, every
call is admitted and simply appends its timestamp. -/
theorem runCalls_all_admitted (u : String) (config : SynapseRoomPreviewConfig)
    (ts : List Nat) :
    ∀ (w : List Nat) (log : RequestLog),
    (getKey? log u).getD [] = w →
    (∀ x ∈ w, ∀ t ∈ ts, t - x ≤ config.burst_duration_seconds) →
    (∀ a ∈ ts, ∀ b ∈ ts, b - a ≤ config.burst_duration_seconds) →
    w.length + ts.length ≤ config.requests_per_burst →
    (runCalls u config ts log).1 = List.replicate ts.length false ∧
    (getKey? (runCalls u config ts log).2 u).getD [] = w ++ ts := by
  induction ts with
  | nil =>
    intro w log hw _ _ _
    simpa [runCalls] using hw
  | cons t ts ih =>
    intro w log hw hbound hpair hlen
    have hfilter : w.filter (fun x => decide (t - x ≤ config.burst_duration_seconds)) = w := by
      rw [List.filter_eq_self]
      intro x hx
      simpa using hbound x hx t (List.mem_cons_self t ts)
    have hnotfull : ¬ config.requests_per_burst ≤ w.length := by
      simp only [List.length_cons] at hlen
      omega
    have hstep : is_rate_limited u config t log = (false, setKey log u (w ++ [t])) := by
      simp only [is_rate_limited, hw, hfilter]
      rw [if_neg hnotfull]
    have hw' : (getKey? (setKey log u (w ++ [t])) u).getD [] = w ++ [t] := by
      rw [getKey?_setKey_self]; rfl
    have hbound' : ∀ x ∈ w ++ [t], ∀ s ∈ ts, s - x ≤ config.burst_duration_seconds := by
      intro x hx s hs
      rcases List.mem_append.1 hx with h | h
      · exact hbound x h s (List.mem_cons_of_mem t hs)
      · rw [List.mem_singleton] at h
        rw [h]
        exact hpair t (List.mem_cons_self t ts) s (List.mem_cons_of_mem t hs)
    have hpair' : ∀ a ∈ ts, ∀ b ∈ ts, b - a ≤ config.burst_duration_seconds :=
      fun a ha b hb =>
        hpair a (List.mem_cons_of_mem t ha) b (List.mem_cons_of_mem t hb)
    have hlen' : (w ++ [t]).length + ts.length ≤ config.requests_per_burst := by
      simp only [List.length_append, List.length_cons, List.length_nil] at hlen ⊢
      omega
    obtain ⟨ih1, ih2⟩ := ih (w ++ [t]) (setKey log u (w ++ [t])) hw' hbound' hpair' hlen'
    constructor
    · simp only [runCalls, hstep, ih1, List.length_cons, List.replicate_succ]
    · simp only [runCalls, hstep, ih2, List.append_assoc, List.singleton_append]

/-- C3: `is_rate_limited(u, config)` (true = refused) first prunes `u`'s
window to timestamps within `[now - burst_duration_seconds, now]`; if the
pruned length is at least `requests_per_burst` it refuses without recording
the new timestamp, otherwise it appends `now` and admits.  With
`requests_per_burst = N` and `burst_duration_seconds = W`, the (N+1)-th
call within W seconds of the first is refused, and a call made strictly
more than W seconds after the first is admitted again. -/
theorem C3_rate_limiter_sliding_window :
    (∀ (u : String) (config : SynapseRoomPreviewConfig) (now : Nat) (log : RequestLog),
      (∀ t ∈ (getKey? log u).getD [], t ≤ now) →
      is_rate_limited u config now log =
        (let pruned := ((getKey? log u).getD []).filter
            (fun t => decide (now - config.burst_duration_seconds ≤ t ∧ t ≤ now));
         if config.requests_per_burst ≤ pruned.length then (true, setKey log u pruned)
         else (false, setKey log u (pruned ++ [now])))) ∧
    (∀ (u : String) (config : SynapseRoomPreviewConfig) (t0 : Nat) (mid : List Nat)
      (tN tR : Nat) (log0 : RequestLog),
      (getKey? log0 u).getD [] = [] →
      0 < config.requests_per_burst →
      (t0 :: mid).length = config.requests_per_burst →
      List.Sorted (· ≤ ·) (t0 :: (mid ++ [tN])) →
      (∀ t ∈ t0 :: (mid ++ [tN]), t - t0 ≤ config.burst_duration_seconds) →
      t0 + config.burst_duration_seconds < tR →
      ((runCalls u config (t0 :: (mid ++ [tN])) log0).1 =
        List.replicate config.requests_per_burst false ++ [true]) ∧
      (is_rate_limited u config tR (runCalls u config (t0 :: (mid ++ [tN])) log0).2).1
        = false) := by
  constructor
  · intro u config now log ht
    have hfe : ((getKey? log u).getD []).filter
        (fun t => decide (now - t ≤ config.burst_duration_seconds)) =
        ((getKey? log u).getD []).filter
        (fun t => decide (now - config.burst_duration_seconds ≤ t ∧ t ≤ now)) := by
      refine List.filter_congr (fun a ha => ?_)
      have := ht a ha
      simp only [decide_eq_decide]
      omega
    simp only [is_rate_limited, hfe]
  · intro u config t0 mid tN tR log0 hlog hN hlen hsort hwin hrec
    have hsort' := List.sorted_cons.1 hsort
    have ht0le : ∀ x ∈ t0 :: mid, t0 ≤ x := by
      intro x hx
      rcases List.mem_cons.1 hx with h | h
      · exact h ▸ le_rfl
      · exact hsort'.1 x (List.mem_append_left _ h)
    have hwin' : ∀ t ∈ t0 :: mid, t - t0 ≤ config.burst_duration_seconds := by
      intro t htm
      rcases List.mem_cons.1 htm with h | h
      · subst h; simp
      · exact hwin t (List.mem_cons_of_mem _ (List.mem_append_left _ h))
    have hburst := runCalls_all_admitted u config (t0 :: mid) [] log0 hlog
      (by intro x hx; simp at hx)
      (by
        intro a ha b hb
        have h1 := ht0le a ha
        have h2 := hwin' b hb
        omega)
      (by simp only [List.length_nil, Nat.zero_add, hlen, le_refl])
    obtain ⟨hres1, hwin1⟩ := hburst
    rw [List.nil_append] at hwin1
    have hcons : t0 :: (mid ++ [tN]) = (t0 :: mid) ++ [tN] := by simp
    rw [hcons, runCalls_append]
    set log1 := (runCalls u config (t0 :: mid) log0).2 with hlog1
    have hfiltN : (t0 :: mid).filter
        (fun x => decide (tN - x ≤ config.burst_duration_seconds)) = t0 :: mid := by
      rw [List.filter_eq_self]
      intro x hx
      have h1 := ht0le x hx
      have h2 := hwin tN (List.mem_cons_of_mem _ (List.mem_append_right _ (List.mem_singleton_self tN)))
      simp only [decide_eq_true_eq]
      omega
    have hstepN : is_rate_limited u config tN log1 =
        (true, setKey log1 u (t0 :: mid)) := by
      simp only [is_rate_limited, hwin1, hfiltN]
      rw [if_pos (le_of_eq hlen.symm)]
    have hsingle : runCalls u config [tN] log1 = ([true], setKey log1 u (t0 :: mid)) := by
      simp only [runCalls, hstepN]
    constructor
    · rw [hsingle, hres1, hlen]
    · rw [hsingle]
      have hwin2 : (getKey? (setKey log1 u (t0 :: mid)) u).getD [] = t0 :: mid := by
        rw [getKey?_setKey_self]; rfl
      simp only [is_rate_limited, hwin2]
      have hdrop : (t0 :: mid).filter
          (fun x => decide (tR - x ≤ config.burst_duration_seconds)) =
          mid.filter (fun x => decide (tR - x ≤ config.burst_duration_seconds)) := by
        rw [List.filter_cons]
        rw [if_neg (by simp only [decide_eq_true_eq]; omega)]
      rw [hdrop]
      rw [if_neg (by
        have h1 := List.length_filter_le
          (fun x => decide (tR - x ≤ config.burst_duration_seconds)) mid
        simp only [List.length_cons] at hlen
        omega)]

/-- Witness for C3: with `requests_per_burst = 2`, `burst_duration_seconds
= 10`, calls at times 0, 1, 2 give admitted, admitted, refused, and a later
call at time 13 (> 0 + 10) is admitted again. -/
theorem C3_witness :
    (runCalls "u" ⟨["t"], 10, 2⟩ [0, 1, 2] []).1 = [false, false, true] ∧
    (is_rate_limited "u" ⟨["t"], 10, 2⟩ 13 (runCalls "u" ⟨["t"], 10, 2⟩ [0, 1, 2] []).2).1
      = false := by
  have h := C3_rate_limiter_sliding_window.2 "u" ⟨["t"], 10, 2⟩ 0 [1] 2 13 []
    (by rfl) (by decide) (by rfl) (by decide) (by decide) (by decide)
  exact h

/-! ## Join-rules redaction lemmas -/

/-- Lookup in the nested map written by `storeRow`, at the row's own
coordinates. -/
theorem storeRow_lookup_self (acc : FetchedMap) (r : Row) :
    getKey? ((getKey? ((getKey? (storeRow acc r) r.room_id).getD []) r.etype).getD [])
        (normKey r.state_key) =
      some (if r.etype = EVENT_TYPE_M_ROOM_JOIN_RULES
            then filter_join_rules_content r.json else r.json) := by
  simp only [storeRow, getKey?_setKey_self, Option.getD_some]

/-- C6: for every event of the join-rules event type, the stored event's
`content` is replaced by a copy containing only the `join_rule` key —
every other content key is stripped — while every other event field is
preserved; concretely, content `{"join_rule": "knock", "allow": [...]}`
becomes exactly `{"join_rule": "knock"}`. -/
theorem C6_join_rules_content_redaction :
    (∀ (fields cfields : List (String × Json)),
      getKey? fields "content" = some (.obj cfields) →
      ∃ cf : List (String × Json),
        filter_join_rules_content (.obj fields) = .obj (setKey fields "content" (.obj cf)) ∧
        getKey? cf JOIN_RULE_CONTENT_KEY = getKey? cfields JOIN_RULE_CONTENT_KEY ∧
        (∀ k, k ≠ JOIN_RULE_CONTENT_KEY → getKey? cf k = none) ∧
        (∀ k, k ≠ "content" →
          getKey? (setKey fields "content" (.obj cf)) k = getKey? fields k)) ∧
    (∀ (acc : FetchedMap) (r : Row), r.etype = EVENT_TYPE_M_ROOM_JOIN_RULES →
      getKey? ((getKey? ((getKey? (storeRow acc r) r.room_id).getD []) r.etype).getD [])
          (normKey r.state_key) = some (filter_join_rules_content r.json)) ∧
    filter_join_rules_content
        (.obj [("content", .obj [("join_rule", .str "knock"),
                                 ("allow", .arr [.obj [("room_id", .str "!parent")]])]),
               ("type", .str "m.room.join_rules"),
               ("event_id", .str "$jr")]) =
      .obj [("content", .obj [("join_rule", .str "knock")]),
            ("type", .str "m.room.join_rules"),
            ("event_id", .str "$jr")] := by
  refine ⟨?_, ?_, by rfl⟩
  · intro fields cfields hc
    refine ⟨match getKey? cfields JOIN_RULE_CONTENT_KEY with
            | some v => [(JOIN_RULE_CONTENT_KEY, v)]
            | none => [], ?_, ?_, ?_, ?_⟩
    · simp only [filter_join_rules_content, hc, Option.getD_some]
    · cases h : getKey? cfields JOIN_RULE_CONTENT_KEY with
      | none => simp [getKey?]
      | some v => simp [getKey?]
    · intro k hk
      cases h : getKey? cfields JOIN_RULE_CONTENT_KEY with
      | none => simp [getKey?]
      | some v => simp [getKey?, Ne.symm hk]
    · intro k hk
      exact getKey?_setKey_ne fields _ hk
  · intro acc r hr
    have := storeRow_lookup_self acc r
    rw [if_pos hr] at this
    exact this

/-- Witness for C6. -/
theorem C6_witness :
    getKey? [("content", Json.obj [("join_rule", Json.str "knock")]),
             ("allow", Json.arr [])] "content" =
        some (Json.obj [("join_rule", Json.str "knock")]) ∧
    ∃ cf : List (String × Json),
      filter_join_rules_content
          (.obj [("content", Json.obj [("join_rule", Json.str "knock")]),
                 ("allow", Json.arr [])]) =
        .obj (setKey [("content", Json.obj [("join_rule", Json.str "knock")]),
                      ("allow", Json.arr [])] "content" (.obj cf)) ∧
      getKey? cf JOIN_RULE_CONTENT_KEY =
        getKey? [("join_rule", Json.str "knock")] JOIN_RULE_CONTENT_KEY ∧
      (∀ k, k ≠ JOIN_RULE_CONTENT_KEY → getKey? cf k = none) ∧
      (∀ k, k ≠ "content" →
        getKey? (setKey [("content", Json.obj [("join_rule", Json.str "knock")]),
                         ("allow", Json.arr [])] "content" (.obj cf)) k =
          getKey? [("content", Json.obj [("join_rule", Json.str "knock")]),
                   ("allow", Json.arr [])] k) :=
  ⟨rfl, C6_join_rules_content_redaction.1
    [("content", Json.obj [("join_rule", Json.str "knock")]), ("allow", Json.arr [])]
    [("join_rule", Json.str "knock")] rfl⟩

/-! ## Membership-summary lemmas -/

/-- Lookup through a filter whose predicate depends only on the key. -/
theorem getKey?_filter_key (l : List (String × α)) (q : String → Bool) (k : String) :
    getKey? (l.filter (fun e => q e.1)) k = if q k then getKey? l k else none := by
  induction l with
  | nil => simp [getKey?]
  | cons e rest ih =>
    obtain ⟨k1, v1⟩ := e
    rw [List.filter_cons]
    by_cases hq : q k1 = true
    · simp only [hq, if_true, if_pos]
      by_cases h : k1 = k
      · subst h
        simp [getKey?, hq]
      · simp [getKey?, h, ih]
    · simp only [Bool.not_eq_true] at hq
      simp only [hq, Bool.false_eq_true, if_false]
      rw [ih]
      by_cases h : k1 = k
      · subst h
        simp [getKey?, hq]
      · simp [getKey?, h]

/-- C5: a payload without the activity-roles event type gets no
`membership_summary`; with it, the summary's domain is exactly the user
ids referenced in the role entries intersected with the users the
membership lookup reports, values being their membership; role entries of
departed users are untouched.  Concretely, with roles referencing A and B,
A joined, B left and a third user C joined but not referenced, the summary
is exactly {A: "join", B: "leave"}. -/
theorem C5_membership_summary_domain :
    (∀ (rd : RoomData) (ms : List (String × Json)),
      getKey? rd.events PANGEA_ACTIVITY_ROLE_STATE_EVENT_TYPE = none →
      add_membership_summary rd ms = rd) ∧
    (∀ (rd : RoomData) (st : Except String RoomState) (ar : List (String × Json)),
      getKey? rd.events PANGEA_ACTIVITY_ROLE_STATE_EVENT_TYPE = some ar →
      (add_membership_summary rd (get_membership_summary st)).events = rd.events ∧
      ∃ m, (add_membership_summary rd (get_membership_summary st)).membership_summary
              = some m ∧
        ∀ u, getKey? m u =
          if (roleUsers ar).any (fun j => Json.beq (Json.str u) j)
          then getKey? (get_membership_summary st) u
          else none) ∧
    add_membership_summary
        ⟨[("pangea.activity_roles",
           [("default", .obj [("content", .obj [("roles", .obj
              [("r1", .obj [("user_id", .str "@a:s")]),
               ("r2", .obj [("user_id", .str "@b:s")])])])])])], none⟩
        (get_membership_summary (.ok
          [(("m.room.member", "@a:s"), .obj [("content", .obj [("membership", .str "join")])]),
           (("m.room.member", "@b:s"), .obj [("content", .obj [("membership", .str "leave")])]),
           (("m.room.member", "@c:s"), .obj [("content", .obj [("membership", .str "join")])])]))
      = ⟨[("pangea.activity_roles",
           [("default", .obj [("content", .obj [("roles", .obj
              [("r1", .obj [("user_id", .str "@a:s")]),
               ("r2", .obj [("user_id", .str "@b:s")])])])])])],
         some [("@a:s", .str "join"), ("@b:s", .str "leave")]⟩ := by
  refine ⟨?_, ?_, by rfl⟩
  · intro rd ms h
    simp only [add_membership_summary, h]
  · intro rd st ar h
    refine ⟨by simp only [add_membership_summary, h], ?_⟩
    refine ⟨(get_membership_summary st).filter
      (fun e => (roleUsers ar).any (fun j => Json.beq (Json.str e.1) j)), ?_, ?_⟩
    · simp only [add_membership_summary, h]
    · intro u
      exact getKey?_filter_key (get_membership_summary st)
        (fun k => (roleUsers ar).any (fun j => Json.beq (Json.str k) j)) u

/-- Witness for C5. -/
theorem C5_witness :
    (getKey? ([("m.room.topic", [("default", Json.str "t")])] :
        List (String × List (String × Json))) PANGEA_ACTIVITY_ROLE_STATE_EVENT_TYPE
      = none) ∧
    add_membership_summary ⟨[("m.room.topic", [("default", Json.str "t")])], none⟩
        [("@a:s", Json.str "join")]
      = ⟨[("m.room.topic", [("default", Json.str "t")])], none⟩ :=
  ⟨rfl, C5_membership_summary_domain.1
    ⟨[("m.room.topic", [("default", Json.str "t")])], none⟩
    [("@a:s", Json.str "join")] rfl⟩

/-! ## Key-set lemmas for the preview pipeline -/

theorem mem_keys_setKey (l : List (String × α)) (k x : String) (v : α) :
    x ∈ keysOf (setKey l k v) ↔ x ∈ keysOf l ∨ x = k := by
  rw [keysOf_setKey]
  by_cases h : k ∈ keysOf l
  · simp only [h, if_true, if_pos]
    constructor
    · exact Or.inl
    · rintro (h2 | h2)
      · exact h2
      · exact h2 ▸ h
  · simp [h, List.mem_append]

theorem mem_keys_storeRow (acc : FetchedMap) (r : Row) (x : String) :
    x ∈ keysOf (storeRow acc r) ↔ x ∈ keysOf acc ∨ x = r.room_id := by
  simp only [storeRow]
  exact mem_keys_setKey _ _ _ _

theorem mem_keys_foldl_storeRow (rows : List Row) :
    ∀ (acc : FetchedMap) (x : String),
    x ∈ keysOf (rows.foldl storeRow acc) ↔
      x ∈ keysOf acc ∨ ∃ r ∈ rows, x = r.room_id := by
  induction rows with
  | nil => simp
  | cons r rest ih =>
    intro acc x
    rw [List.foldl_cons, ih, mem_keys_storeRow]
    constructor
    · rintro ((h | h) | ⟨r2, hr2, hx⟩)
      · exact Or.inl h
      · exact Or.inr ⟨r, List.mem_cons_self r rest, h⟩
      · exact Or.inr ⟨r2, List.mem_cons_of_mem r hr2, hx⟩
    · rintro (h | ⟨r2, hr2, hx⟩)
      · exact Or.inl (Or.inl h)
      · rcases List.mem_cons.1 hr2 with h2 | h2
        · exact Or.inl (Or.inr (h2 ▸ hx))
        · exact Or.inr ⟨r2, h2, hx⟩

theorem mem_keys_initFetched_aux (rtf : List String) :
    ∀ (acc : FetchedMap) (x : String),
    x ∈ keysOf (rtf.foldl (fun acc rid => setKey acc rid []) acc) ↔
      x ∈ keysOf acc ∨ x ∈ rtf := by
  induction rtf with
  | nil => simp
  | cons rid rest ih =>
    intro acc x
    rw [List.foldl_cons, ih, mem_keys_setKey]
    constructor
    · rintro ((h | h) | h)
      · exact Or.inl h
      · exact Or.inr (h ▸ List.mem_cons_self rid rest)
      · exact Or.inr (List.mem_cons_of_mem rid h)
    · rintro (h | h)
      · exact Or.inl (Or.inl h)
      · rcases List.mem_cons.1 h with h2 | h2
        · exact Or.inl (Or.inr h2)
        · exact Or.inr h2

theorem mem_keys_initFetched (rtf : List String) (x : String) :
    x ∈ keysOf (initFetched rtf) ↔ x ∈ rtf := by
  rw [initFetched, mem_keys_initFetched_aux]
  simp [keysOf]

theorem distinctOnGo_subset : ∀ (rows : List Row)
    (seen : List (String × String × Option String)),
    ∀ x ∈ distinctOnGo rows seen, x ∈ rows := by
  intro rows
  induction rows with
  | nil => intro seen x hx; simp [distinctOnGo] at hx
  | cons r rest ih =>
    intro seen x hx
    rw [distinctOnGo] at hx
    by_cases h : (r.room_id, r.etype, r.state_key) ∈ seen
    · rw [if_pos h] at hx
      exact List.mem_cons_of_mem r (ih seen x hx)
    · rw [if_neg h] at hx
      rcases List.mem_cons.1 hx with h2 | h2
      · exact h2 ▸ List.mem_cons_self r rest
      · exact List.mem_cons_of_mem r (ih _ x h2)

theorem distinctOn_subset : ∀ (rows : List Row), ∀ x ∈ distinctOn rows, x ∈ rows :=
  fun rows => distinctOnGo_subset rows []

theorem distinctOnGo_covers : ∀ (rows : List Row)
    (seen : List (String × String × Option String)) (r : Row),
    r ∈ rows → (r.room_id, r.etype, r.state_key) ∉ seen →
    ∃ r2 ∈ distinctOnGo rows seen, r2.room_id = r.room_id ∧ r2.etype = r.etype ∧
      r2.state_key = r.state_key := by
  intro rows
  induction rows with
  | nil => intro seen r hr _; simp at hr
  | cons r0 rest ih =>
    intro seen r hr hseen
    rw [distinctOnGo]
    by_cases h : (r0.room_id, r0.etype, r0.state_key) ∈ seen
    · rw [if_pos h]
      rcases List.mem_cons.1 hr with h2 | h2
      · exact absurd (by rw [h2]; exact h) hseen
      · exact ih seen r h2 hseen
    · rw [if_neg h]
      rcases List.mem_cons.1 hr with h2 | h2
      · exact ⟨r0, List.mem_cons_self _ _, by rw [h2], by rw [h2], by rw [h2]⟩
      · by_cases hsame : (r.room_id, r.etype, r.state_key) =
            (r0.room_id, r0.etype, r0.state_key)
        · rw [Prod.ext_iff, Prod.ext_iff] at hsame
          exact ⟨r0, List.mem_cons_self _ _, hsame.1.symm, hsame.2.1.symm, hsame.2.2.symm⟩
        · have hnot : (r.room_id, r.etype, r.state_key) ∉
              (r0.room_id, r0.etype, r0.state_key) :: seen := by
            rw [List.mem_cons]
            rintro (hc | hc)
            · exact hsame hc
            · exact hseen hc
          obtain ⟨r2, hr2, he⟩ := ih _ r h2 hnot
          exact ⟨r2, List.mem_cons_of_mem r0 hr2, he⟩

/-- `DISTINCT ON` keeps a representative of every (room, type, state key)
group. -/
theorem distinctOn_covers : ∀ (rows : List Row), ∀ r ∈ rows,
    ∃ r2 ∈ distinctOn rows, r2.room_id = r.room_id ∧ r2.etype = r.etype ∧
      r2.state_key = r.state_key :=
  fun rows r hr => distinctOnGo_covers rows [] r hr (by simp)

theorem mem_keys_processRows (backend : Backend) (rows : List Row)
    (rtf : List String) (x : String) :
    x ∈ keysOf (processRows backend rows rtf) ↔
      x ∈ rtf ∨ ∃ r ∈ rows, x = r.room_id := by
  cases backend with
  | sqlite =>
    rw [processRows, mem_keys_foldl_storeRow, mem_keys_initFetched]
  | postgres =>
    rw [processRows, mem_keys_foldl_storeRow, mem_keys_initFetched]
    constructor
    · rintro (h | ⟨r, hr, hx⟩)
      · exact Or.inl h
      · exact Or.inr ⟨r, distinctOn_subset rows r hr, hx⟩
    · rintro (h | ⟨r, hr, hx⟩)
      · exact Or.inl h
      · obtain ⟨r2, hr2, he1, _, _⟩ := distinctOn_covers rows r hr
        exact Or.inr ⟨r2, hr2, hx.trans he1.symm⟩

theorem previewLoop_keys (env : PreviewEnv) (now : Nat) :
    ∀ (rooms : List String) (result : List (String × RoomData)) (rtf : List String)
      (cache : Cache),
      (∀ x ∈ keysOf (previewLoop env now rooms result rtf cache).1,
        x ∈ keysOf result ∨ x ∈ rooms) ∧
      (∀ x ∈ (previewLoop env now rooms result rtf cache).2.1,
        x ∈ rtf ∨ x ∈ rooms) ∧
      (∀ x ∈ rooms,
        x ∈ keysOf (previewLoop env now rooms result rtf cache).1 ∨
        x ∈ (previewLoop env now rooms result rtf cache).2.1) ∧
      (∀ x ∈ keysOf result, x ∈ keysOf (previewLoop env now rooms result rtf cache).1) ∧
      (∀ x ∈ rtf, x ∈ (previewLoop env now rooms result rtf cache).2.1) := by
  intro rooms
  induction rooms with
  | nil =>
    intro result rtf cache
    refine ⟨?_, ?_, ?_, ?_, ?_⟩ <;> simp [previewLoop]
  | cons r rest ih =>
    intro result rtf cache
    rcases hgc : get_cached_room now cache r with ⟨od, cache'⟩
    cases od with
    | some data =>
      have hred : previewLoop env now (r :: rest) result rtf cache =
          previewLoop env now rest
            (setKey result r (add_membership_summary data
              (get_membership_summary (env.get_room_state r))))
            rtf
            (updateCachedData cache' r (add_membership_summary data
              (get_membership_summary (env.get_room_state r)))) := by
        simp only [previewLoop, hgc]
      rw [hred]
      obtain ⟨ih1, ih2, ih3, ih4, ih5⟩ := ih
        (setKey result r (add_membership_summary data
          (get_membership_summary (env.get_room_state r))))
        rtf
        (updateCachedData cache' r (add_membership_summary data
          (get_membership_summary (env.get_room_state r))))
      refine ⟨?_, ?_, ?_, ?_, ?_⟩
      · intro x hx
        rcases ih1 x hx with h | h
        · rcases (mem_keys_setKey _ _ _ _).1 h with h2 | h2
          · exact Or.inl h2
          · exact Or.inr (h2 ▸ List.mem_cons_self r rest)
        · exact Or.inr (List.mem_cons_of_mem r h)
      · intro x hx
        rcases ih2 x hx with h | h
        · exact Or.inl h
        · exact Or.inr (List.mem_cons_of_mem r h)
      · intro x hx
        rcases List.mem_cons.1 hx with h | h
        · refine Or.inl (ih4 x ?_)
          exact (mem_keys_setKey _ _ _ _).2 (Or.inr h)
        · exact ih3 x h
      · intro x hx
        exact ih4 x ((mem_keys_setKey _ _ _ _).2 (Or.inl hx))
      · exact ih5
    | none =>
      have hred : previewLoop env now (r :: rest) result rtf cache =
          previewLoop env now rest result (rtf ++ [r]) cache' := by
        simp only [previewLoop, hgc]
      rw [hred]
      obtain ⟨ih1, ih2, ih3, ih4, ih5⟩ := ih result (rtf ++ [r]) cache'
      refine ⟨?_, ?_, ?_, ?_, ?_⟩
      · intro x hx
        rcases ih1 x hx with h | h
        · exact Or.inl h
        · exact Or.inr (List.mem_cons_of_mem r h)
      · intro x hx
        rcases ih2 x hx with h | h
        · rcases List.mem_append.1 h with h2 | h2
          · exact Or.inl h2
          · exact Or.inr ((List.mem_singleton.1 h2) ▸ List.mem_cons_self r rest)
        · exact Or.inr (List.mem_cons_of_mem r h)
      · intro x hx
        rcases List.mem_cons.1 hx with h | h
        · exact Or.inr (ih5 x (List.mem_append_right _ (h ▸ List.mem_singleton_self r)))
        · exact ih3 x h
      · exact ih4
      · intro x hx
        exact ih5 x (List.mem_append_left _ hx)

theorem enrichAndCache_keys (env : PreviewEnv) (now : Nat) :
    ∀ (fetched : FetchedMap) (result : List (String × RoomData)) (cache : Cache) (x : String),
      x ∈ keysOf (enrichAndCache env now fetched result cache).1 ↔
        x ∈ keysOf result ∨ x ∈ keysOf fetched := by
  intro fetched
  induction fetched with
  | nil => intro result cache x; simp [enrichAndCache, keysOf]
  | cons e rest ih =>
    intro result cache x
    obtain ⟨rid, em⟩ := e
    rw [show enrichAndCache env now ((rid, em) :: rest) result cache =
      enrichAndCache env now rest
        (setKey result rid (add_membership_summary ⟨em, none⟩
          (get_membership_summary (env.get_room_state rid))))
        (cache_room_data cache rid (add_membership_summary ⟨em, none⟩
          (get_membership_summary (env.get_room_state rid))) now) from rfl]
    rw [ih, mem_keys_setKey]
    simp only [keysOf, List.map_cons, List.mem_cons]
    constructor
    · rintro ((h | h) | h)
      · exact Or.inl h
      · exact Or.inr (Or.inl h)
      · exact Or.inr (Or.inr h)
    · rintro (h | h | h)
      · exact Or.inl (Or.inl h)
      · exact Or.inl (Or.inr h)
      · exact Or.inr h

/-- C7: with an empty room list or an empty configured tracked-event-type
list, `get_room_preview` returns `{}` immediately, leaves the cache alone
and issues no queries; otherwise the key set of the returned map is exactly
the set of requested room ids (the database only returns rows for requested
rooms); concretely `get_room_preview(["!nonexistent"])` over an empty event
log returns `{"!nonexistent": {}}`. -/
theorem C7_result_key_set :
    (∀ (config : SynapseRoomPreviewConfig) (env : PreviewEnv) (now : Nat) (cache : Cache),
      get_room_preview [] config env now cache = ([], cache, 0)) ∧
    (∀ (rooms : List String) (config : SynapseRoomPreviewConfig),
      config.room_preview_state_event_types = [] →
      ∀ (env : PreviewEnv) (now : Nat) (cache : Cache),
      get_room_preview rooms config env now cache = ([], cache, 0)) ∧
    (∀ (rooms : List String) (config : SynapseRoomPreviewConfig) (env : PreviewEnv)
       (now : Nat) (cache : Cache),
      rooms ≠ [] →
      config.room_preview_state_event_types ≠ [] →
      (∀ rtf ts r, r ∈ env.fetch rtf ts → r.room_id ∈ rtf) →
      ∀ x, x ∈ keysOf (get_room_preview rooms config env now cache).1 ↔ x ∈ rooms) ∧
    ((get_room_preview ["!nonexistent"] ⟨["p.room_summary"], 60, 10⟩
        ⟨Backend.sqlite, fun _ _ => [], fun _ => .ok []⟩ 0 []).1
      = [("!nonexistent", ⟨[], none⟩)] ∧
     (get_room_preview ["!nonexistent"] ⟨["p.room_summary"], 60, 10⟩
        ⟨Backend.sqlite, fun _ _ => [], fun _ => .ok []⟩ 0 []).2.2 = 1) := by
  refine ⟨?_, ?_, ?_, by constructor <;> rfl⟩
  · intro config env now cache
    simp [get_room_preview]
  · intro rooms config h env now cache
    rw [get_room_preview, if_pos (Or.inr h)]
  · intro rooms config env now cache h1 h2 hf x
    rw [get_room_preview, if_neg (by
      rintro (h | h)
      · exact h1 h
      · exact h2 h)]
    obtain ⟨hpl1, hpl2, hpl3, hpl4, hpl5⟩ :=
      previewLoop_keys env now rooms [] [] (cleanup_expired_cache now cache)
    rcases hPd : previewLoop env now rooms [] [] (cleanup_expired_cache now cache)
      with ⟨res1, rtf1, c2⟩
    rw [hPd] at hpl1 hpl2 hpl3 hpl4 hpl5
    simp only at hpl1 hpl2 hpl3 hpl4 hpl5
    simp only [hPd]
    by_cases hrtf : rtf1 = []
    · rw [if_pos hrtf]
      subst hrtf
      constructor
      · intro hx
        rcases hpl1 x hx with h | h
        · simp [keysOf] at h
        · exact h
      · intro hx
        rcases hpl3 x hx with h | h
        · exact h
        · simp at h
    · rw [if_neg hrtf]
      rcases hE : enrichAndCache env now
          (processRows env.backend
            (env.fetch rtf1 config.room_preview_state_event_types) rtf1)
          res1 c2 with ⟨res2, c3⟩
      simp only [hE]
      have hkeys := enrichAndCache_keys env now
        (processRows env.backend
          (env.fetch rtf1 config.room_preview_state_event_types) rtf1)
        res1 c2 x
      rw [hE] at hkeys
      simp only at hkeys
      rw [hkeys, mem_keys_processRows]
      constructor
      · rintro (h | h | ⟨r, hr, hx⟩)
        · rcases hpl1 x h with h2 | h2
          · simp [keysOf] at h2
          · exact h2
        · rcases hpl2 x h with h2 | h2
          · simp at h2
          · exact h2
        · have h2 := hf rtf1 config.room_preview_state_event_types r hr
          rcases hpl2 x (hx ▸ h2) with h3 | h3
          · simp at h3
          · exact h3
      · intro hx
        rcases hpl3 x hx with h | h
        · exact Or.inl h
        · exact Or.inr (Or.inl h)

/-- Witness for C7. -/
theorem C7_witness :
    ((["!a", "!b"] : List String) ≠ [] ∧
     (["p.room_summary"] : List String) ≠ []) ∧
    (("!a" ∈ keysOf (get_room_preview ["!a", "!b"] ⟨["p.room_summary"], 60, 10⟩
        ⟨Backend.postgres, fun _ _ => [], fun _ => .ok []⟩ 5 []).1) ∧
     ¬ ("!c" ∈ keysOf (get_room_preview ["!a", "!b"] ⟨["p.room_summary"], 60, 10⟩
        ⟨Backend.postgres, fun _ _ => [], fun _ => .ok []⟩ 5 []).1)) := by
  refine ⟨⟨by decide, by decide⟩, ?_, ?_⟩
  · exact (C7_result_key_set.2.2.1 ["!a", "!b"] ⟨["p.room_summary"], 60, 10⟩
      ⟨Backend.postgres, fun _ _ => [], fun _ => .ok []⟩ 5 []
      (by decide) (by decide) (by intro rtf ts r hr; simp at hr) "!a").2
      (by decide)
  · intro hmem
    have := (C7_result_key_set.2.2.1 ["!a", "!b"] ⟨["p.room_summary"], 60, 10⟩
      ⟨Backend.postgres, fun _ _ => [], fun _ => .ok []⟩ 5 []
      (by decide) (by decide) (by intro rtf ts r hr; simp at hr) "!c").1 hmem
    simp at this

/-! ## Single-room call shape lemmas (miss path and hit path) -/

theorem foldl_storeRow_keyfixed (R : String) :
    ∀ (rows : List Row) (em : List (String × List (String × Json))),
    (∀ r ∈ rows, r.room_id = R) →
    ∃ em2, rows.foldl storeRow [(R, em)] = [(R, em2)] := by
  intro rows
  induction rows with
  | nil => intro em _; exact ⟨em, rfl⟩
  | cons r rest ih =>
    intro em hrows
    have hr : r.room_id = R := hrows r (List.mem_cons_self r rest)
    have hstep : ∃ em1, storeRow [(R, em)] r = [(R, em1)] := by
      refine ⟨setKey ((getKey? [(R, em)] r.room_id).getD []) r.etype
        (setKey (((getKey? ((getKey? [(R, em)] r.room_id).getD []) r.etype)).getD [])
          (normKey r.state_key)
          (if r.etype = EVENT_TYPE_M_ROOM_JOIN_RULES
           then filter_join_rules_content r.json else r.json)), ?_⟩
      simp only [storeRow]
      rw [hr]
      simp [setKey]
    obtain ⟨em1, hem1⟩ := hstep
    rw [List.foldl_cons, hem1]
    exact ih em1 (fun r2 hr2 => hrows r2 (List.mem_cons_of_mem r hr2))

theorem processRows_single (backend : Backend) (rows : List Row) (R : String)
    (hrows : ∀ r ∈ rows, r.room_id = R) :
    ∃ em, processRows backend rows [R] = [(R, em)] := by
  have hinit : initFetched [R] = [(R, [])] := rfl
  cases backend with
  | sqlite =>
    rw [processRows, hinit]
    exact foldl_storeRow_keyfixed R rows [] hrows
  | postgres =>
    rw [processRows, hinit]
    exact foldl_storeRow_keyfixed R (distinctOn rows) []
      (fun r hr => hrows r (distinctOn_subset rows r hr))

/-- `get_room_preview([R])` on a cache miss: a single aggregation query,
payload aggregated from the returned rows, enriched, stored with the
current timestamp and returned. -/
theorem get_room_preview_miss (R : String) (config : SynapseRoomPreviewConfig)
    (env : PreviewEnv) (now : Nat) (cache : Cache)
    (hcfg : config.room_preview_state_event_types ≠ [])
    (hmiss : getKey? (cleanup_expired_cache now cache) R = none)
    (hrows : ∀ r ∈ env.fetch [R] config.room_preview_state_event_types, r.room_id = R) :
    ∃ em,
      processRows env.backend (env.fetch [R] config.room_preview_state_event_types) [R]
        = [(R, em)] ∧
      get_room_preview [R] config env now cache =
      ([(R, add_membership_summary ⟨em, none⟩
          (get_membership_summary (env.get_room_state R)))],
       setKey (cleanup_expired_cache now cache) R
         (add_membership_summary ⟨em, none⟩
           (get_membership_summary (env.get_room_state R)), now),
       1) := by
  obtain ⟨em, hem⟩ := processRows_single env.backend
    (env.fetch [R] config.room_preview_state_event_types) R hrows
  refine ⟨em, hem, ?_⟩
  rw [get_room_preview, if_neg (by
    rintro (h | h)
    · exact absurd h (by simp)
    · exact hcfg h)]
  have hgc : get_cached_room now (cleanup_expired_cache now cache) R =
      (none, cleanup_expired_cache now cache) := by
    rw [get_cached_room, hmiss]
  have hPd : previewLoop env now [R] [] [] (cleanup_expired_cache now cache) =
      ([], [R], cleanup_expired_cache now cache) := by
    simp only [previewLoop, hgc, List.nil_append]
  simp only [hPd, hem]
  rw [if_neg (by simp)]
  simp only [enrichAndCache, cache_room_data, setKey]

/-- `get_room_preview([R])` on a fresh cache hit: no aggregation query; the
cached payload is re-enriched with the current membership summary, written
back into the cache entry (timestamp untouched) and returned. -/
theorem get_room_preview_hit (R : String) (config : SynapseRoomPreviewConfig)
    (env : PreviewEnv) (now : Nat) (cache : Cache) (d : RoomData) (ts : Nat)
    (hcfg : config.room_preview_state_event_types ≠ [])
    (hhit : getKey? (cleanup_expired_cache now cache) R = some (d, ts))
    (hvalid : now - ts < CACHE_TTL_SECONDS) :
    get_room_preview [R] config env now cache =
      ([(R, add_membership_summary d (get_membership_summary (env.get_room_state R)))],
       updateCachedData (cleanup_expired_cache now cache) R
         (add_membership_summary d (get_membership_summary (env.get_room_state R))),
       0) := by
  rw [get_room_preview, if_neg (by
    rintro (h | h)
    · exact absurd h (by simp)
    · exact hcfg h)]
  have hgc : get_cached_room now (cleanup_expired_cache now cache) R =
      (some d, cleanup_expired_cache now cache) := by
    rw [get_cached_room, hhit]
    simp [is_cache_valid, hvalid]
  have hPd : previewLoop env now [R] [] [] (cleanup_expired_cache now cache) =
      ([(R, add_membership_summary d (get_membership_summary (env.get_room_state R)))],
       [],
       updateCachedData (cleanup_expired_cache now cache) R
         (add_membership_summary d (get_membership_summary (env.get_room_state R)))) := by
    simp only [previewLoop, hgc, setKey]
  simp only [hPd]
  rw [if_pos trivial]

/-- Re-applying `_add_membership_summary` with the same summary is the
identity on an already-enriched payload. -/
theorem add_membership_summary_idem (d : RoomData) (ms : List (String × Json)) :
    add_membership_summary (add_membership_summary d ms) ms =
      add_membership_summary d ms := by
  cases h : getKey? d.events PANGEA_ACTIVITY_ROLE_STATE_EVENT_TYPE with
  | none =>
    rw [show add_membership_summary d ms = d from by
      simp only [add_membership_summary, h]]
    simp only [add_membership_summary, h]
  | some ar =>
    have h1 : add_membership_summary d ms =
        { d with membership_summary := some (ms.filter
            (fun e => (roleUsers ar).any (fun j => Json.beq (Json.str e.1) j))) } := by
      simp only [add_membership_summary, h]
    rw [h1]
    simp only [add_membership_summary, h]

theorem add_membership_summary_events (d : RoomData) (ms : List (String × Json)) :
    (add_membership_summary d ms).events = d.events := by
  cases h : getKey? d.events PANGEA_ACTIVITY_ROLE_STATE_EVENT_TYPE with
  | none => simp only [add_membership_summary, h]
  | some ar => simp only [add_membership_summary, h]

/-- C4: a first `get_room_preview([R])` for an uncached room issues exactly
one aggregation query and stores the enriched payload with the current
timestamp; a second call strictly less than the 300-second TTL later issues
zero aggregation queries and returns a payload equal to the first modulo
the recomputed `membership_summary` (and equal outright when the membership
oracle is unchanged); a cache entry whose age is at least the TTL is
treated as absent by the lookup and deleted as a side effect. -/
theorem C4_cache_ttl_behavior :
    (∀ (R : String) (config : SynapseRoomPreviewConfig) (env : PreviewEnv)
       (now now2 : Nat) (cache : Cache),
      config.room_preview_state_event_types ≠ [] →
      getKey? cache R = none →
      (∀ r ∈ env.fetch [R] config.room_preview_state_event_types, r.room_id = R) →
      now2 - now < CACHE_TTL_SECONDS →
      ∃ rd cache1,
        get_room_preview [R] config env now cache = ([(R, rd)], cache1, 1) ∧
        getKey? cache1 R = some (rd, now) ∧
        (∀ env2 : PreviewEnv, ∃ cache2,
          get_room_preview [R] config env2 now2 cache1 =
            ([(R, add_membership_summary rd
                (get_membership_summary (env2.get_room_state R)))], cache2, 0) ∧
          (add_membership_summary rd
            (get_membership_summary (env2.get_room_state R))).events = rd.events) ∧
        (∃ cache2, get_room_preview [R] config env now2 cache1 =
          ([(R, rd)], cache2, 0))) ∧
    (∀ (now : Nat) (cache : Cache) (R : String) (d : RoomData) (ts : Nat),
      getKey? cache R = some (d, ts) →
      CACHE_TTL_SECONDS ≤ now - ts →
      get_cached_room now cache R = (none, eraseKey cache R) ∧
      getKey? (eraseKey cache R) R = none) := by
  constructor
  · intro R config env now now2 cache hcfg hmiss hrows hfresh
    have hmiss' : getKey? (cleanup_expired_cache now cache) R = none :=
      getKey?_filter_none _ _ _ hmiss
    obtain ⟨em, _, hcall1⟩ := get_room_preview_miss R config env now cache hcfg hmiss' hrows
    refine ⟨add_membership_summary ⟨em, none⟩
        (get_membership_summary (env.get_room_state R)),
      setKey (cleanup_expired_cache now cache) R
        (add_membership_summary ⟨em, none⟩
          (get_membership_summary (env.get_room_state R)), now),
      hcall1, getKey?_setKey_self _ _ _, ?_, ?_⟩
    · intro env2
      have hhit2 : getKey? (cleanup_expired_cache now2
          (setKey (cleanup_expired_cache now cache) R
            (add_membership_summary ⟨em, none⟩
              (get_membership_summary (env.get_room_state R)), now))) R =
          some (add_membership_summary ⟨em, none⟩
            (get_membership_summary (env.get_room_state R)), now) := by
        refine getKey?_filter_some _ _ _ _ (getKey?_setKey_self _ _ _) ?_
        simp only [Bool.not_eq_eq_eq_not, Bool.not_true, decide_eq_false_iff_not]
        omega
      have hc := get_room_preview_hit R config env2 now2 _ _ now hcfg hhit2 hfresh
      exact ⟨updateCachedData
          (cleanup_expired_cache now2
            (setKey (cleanup_expired_cache now cache) R
              (add_membership_summary ⟨em, none⟩
                (get_membership_summary (env.get_room_state R)), now)))
          R
          (add_membership_summary
            (add_membership_summary ⟨em, none⟩
              (get_membership_summary (env.get_room_state R)))
            (get_membership_summary (env2.get_room_state R))),
        hc, add_membership_summary_events _ _⟩
    · have hhit2 : getKey? (cleanup_expired_cache now2
          (setKey (cleanup_expired_cache now cache) R
            (add_membership_summary ⟨em, none⟩
              (get_membership_summary (env.get_room_state R)), now))) R =
          some (add_membership_summary ⟨em, none⟩
            (get_membership_summary (env.get_room_state R)), now) := by
        refine getKey?_filter_some _ _ _ _ (getKey?_setKey_self _ _ _) ?_
        simp only [Bool.not_eq_eq_eq_not, Bool.not_true, decide_eq_false_iff_not]
        omega
      refine ⟨updateCachedData
          (cleanup_expired_cache now2
            (setKey (cleanup_expired_cache now cache) R
              (add_membership_summary ⟨em, none⟩
                (get_membership_summary (env.get_room_state R)), now)))
          R
          (add_membership_summary ⟨em, none⟩
            (get_membership_summary (env.get_room_state R))), ?_⟩
      have h2 := get_room_preview_hit R config env now2 _ _ now hcfg hhit2 hfresh
      rw [add_membership_summary_idem] at h2
      exact h2
  · intro now cache R d ts hkey hstale
    constructor
    · rw [get_cached_room, hkey]
      have : is_cache_valid now ts = false := by
        simp only [is_cache_valid, decide_eq_false_iff_not, not_lt]
        exact hstale
      simp [this]
    · exact getKey?_eraseKey_self _ _

/-- Witness for C4. -/
theorem C4_witness :
    ∃ rd cache1,
      get_room_preview ["!r"] ⟨["p.room_summary"], 60, 10⟩
        ⟨Backend.sqlite, fun _ _ => [], fun _ => .ok []⟩ 0 [] = ([("!r", rd)], cache1, 1) ∧
      getKey? cache1 "!r" = some (rd, 0) ∧
      (∀ env2 : PreviewEnv, ∃ cache2,
        get_room_preview ["!r"] ⟨["p.room_summary"], 60, 10⟩ env2 100 cache1 =
          ([("!r", add_membership_summary rd
              (get_membership_summary (env2.get_room_state "!r")))], cache2, 0) ∧
        (add_membership_summary rd
          (get_membership_summary (env2.get_room_state "!r"))).events = rd.events) ∧
      (∃ cache2, get_room_preview ["!r"] ⟨["p.room_summary"], 60, 10⟩
          ⟨Backend.sqlite, fun _ _ => [], fun _ => .ok []⟩ 100 cache1 =
        ([("!r", rd)], cache2, 0)) :=
  C4_cache_ttl_behavior.1 "!r" ⟨["p.room_summary"], 60, 10⟩
    ⟨Backend.sqlite, fun _ _ => [], fun _ => .ok []⟩ 0 100 []
    (by decide) rfl (by intro r hr; simp at hr) (by decide)

/-- C9: on a cache hit the freshly recomputed membership summary is written
into the stored cache entry's payload itself — the returned payload and the
cached payload coincide after the call — while the entry's stored timestamp
is unchanged, so a hit never extends the TTL. -/
theorem C9_cache_hit_mutates_entry_payload :
    ∀ (R : String) (config : SynapseRoomPreviewConfig) (env : PreviewEnv)
      (now : Nat) (cache : Cache) (d : RoomData) (ts : Nat),
    config.room_preview_state_event_types ≠ [] →
    getKey? (cleanup_expired_cache now cache) R = some (d, ts) →
    now - ts < CACHE_TTL_SECONDS →
    ∃ cache2,
      get_room_preview [R] config env now cache =
        ([(R, add_membership_summary d (get_membership_summary (env.get_room_state R)))],
         cache2, 0) ∧
      getKey? cache2 R =
        some (add_membership_summary d (get_membership_summary (env.get_room_state R)), ts) ∧
      (∀ ar, getKey? d.events PANGEA_ACTIVITY_ROLE_STATE_EVENT_TYPE = some ar →
        (add_membership_summary d
          (get_membership_summary (env.get_room_state R))).membership_summary =
          some ((get_membership_summary (env.get_room_state R)).filter
            (fun e => (roleUsers ar).any (fun j => Json.beq (Json.str e.1) j)))) := by
  intro R config env now cache d ts hcfg hhit hvalid
  refine ⟨_, get_room_preview_hit R config env now cache d ts hcfg hhit hvalid, ?_, ?_⟩
  · rw [getKey?_updateCachedData_self, hhit]
    rfl
  · intro ar har
    simp only [add_membership_summary, har]

/-- Witness for C9. -/
theorem C9_witness :
    ∃ cache2,
      get_room_preview ["!r"] ⟨["p.room_summary"], 60, 10⟩
          ⟨Backend.sqlite, fun _ _ => [], fun _ => .ok []⟩ 10
          [("!r", (⟨[("m.room.topic", [("default", Json.str "t")])], none⟩, 4))] =
        ([("!r", add_membership_summary
            ⟨[("m.room.topic", [("default", Json.str "t")])], none⟩
            (get_membership_summary (Except.ok [])))], cache2, 0) ∧
      getKey? cache2 "!r" =
        some (add_membership_summary
          ⟨[("m.room.topic", [("default", Json.str "t")])], none⟩
          (get_membership_summary (Except.ok [])), 4) ∧
      (∀ ar, getKey? ([("m.room.topic", [("default", Json.str "t")])] :
          List (String × List (String × Json))) PANGEA_ACTIVITY_ROLE_STATE_EVENT_TYPE
          = some ar →
        (add_membership_summary ⟨[("m.room.topic", [("default", Json.str "t")])], none⟩
          (get_membership_summary (Except.ok []))).membership_summary =
          some ((get_membership_summary (Except.ok [])).filter
            (fun e => (roleUsers ar).any (fun j => Json.beq (Json.str e.1) j)))) :=
  C9_cache_hit_mutates_entry_payload "!r" ⟨["p.room_summary"], 60, 10⟩
    ⟨Backend.sqlite, fun _ _ => [], fun _ => .ok []⟩ 10
    [("!r", (⟨[("m.room.topic", [("default", Json.str "t")])], none⟩, 4))]
    ⟨[("m.room.topic", [("default", Json.str "t")])], none⟩ 4
    (by decide) (by rfl) (by decide)

/-- C10: empty aggregation results are cached.  After `get_room_preview([R])`
with no tracked state rows for R, the cache holds `(R, {})` stamped with the
current time, and any further call within the TTL issues no aggregation
query and serves `{}` from the cache. -/
theorem C10_negative_caching :
    ∀ (R : String) (config : SynapseRoomPreviewConfig) (env env2 : PreviewEnv)
      (now now2 : Nat) (cache : Cache),
    config.room_preview_state_event_types ≠ [] →
    getKey? cache R = none →
    env.fetch [R] config.room_preview_state_event_types = [] →
    now2 - now < CACHE_TTL_SECONDS →
    ∃ cache1 cache2,
      get_room_preview [R] config env now cache =
        ([(R, ⟨[], none⟩)], cache1, 1) ∧
      getKey? cache1 R = some (⟨[], none⟩, now) ∧
      get_room_preview [R] config env2 now2 cache1 = ([(R, ⟨[], none⟩)], cache2, 0) := by
  intro R config env env2 now now2 cache hcfg hmiss hfetch hfresh
  have hmiss' : getKey? (cleanup_expired_cache now cache) R = none :=
    getKey?_filter_none _ _ _ hmiss
  obtain ⟨em, hpr, hcall1⟩ := get_room_preview_miss R config env now cache hcfg hmiss'
    (by rw [hfetch]; intro r hr; simp at hr)
  rw [hfetch] at hpr
  have hempty : processRows env.backend [] [R] = [(R, [])] := by
    have hd : distinctOn [] = [] := rfl
    cases hb : env.backend with
    | sqlite => rfl
    | postgres =>
      rw [processRows, hd]
      rfl
  have hem : em = [] := by
    rw [hempty] at hpr
    exact (Prod.mk.injEq _ _ _ _ ▸ (List.cons.injEq _ _ _ _ ▸ hpr).1).2.symm ▸ rfl
  subst hem
  have hadd : ∀ ms, add_membership_summary ⟨[], none⟩ ms = ⟨[], none⟩ := fun ms => rfl
  rw [hadd] at hcall1
  refine ⟨setKey (cleanup_expired_cache now cache) R (⟨[], none⟩, now),
    updateCachedData
      (cleanup_expired_cache now2
        (setKey (cleanup_expired_cache now cache) R (⟨[], none⟩, now)))
      R ⟨[], none⟩,
    hcall1, getKey?_setKey_self _ _ _, ?_⟩
  have hhit2 : getKey? (cleanup_expired_cache now2
      (setKey (cleanup_expired_cache now cache) R (⟨[], none⟩, now))) R =
      some ((⟨[], none⟩ : RoomData), now) := by
    refine getKey?_filter_some _ _ _ _ (getKey?_setKey_self _ _ _) ?_
    simp only [Bool.not_eq_eq_eq_not, Bool.not_true, decide_eq_false_iff_not]
    omega
  have h2 := get_room_preview_hit R config env2 now2 _ _ now hcfg hhit2 hfresh
  rw [hadd] at h2
  exact h2

/-- Witness for C10. -/
theorem C10_witness :
    ∃ cache1 cache2,
      get_room_preview ["!r"] ⟨["p.room_summary"], 60, 10⟩
          ⟨Backend.postgres, fun _ _ => [], fun _ => .ok []⟩ 7 [] =
        ([("!r", ⟨[], none⟩)], cache1, 1) ∧
      getKey? cache1 "!r" = some (⟨[], none⟩, 7) ∧
      get_room_preview ["!r"] ⟨["p.room_summary"], 60, 10⟩
          ⟨Backend.sqlite, fun _ _ => [], fun _ => .ok []⟩ 200 cache1 =
        ([("!r", ⟨[], none⟩)], cache2, 0) :=
  C10_negative_caching "!r" ⟨["p.room_summary"], 60, 10⟩
    ⟨Backend.postgres, fun _ _ => [], fun _ => .ok []⟩
    ⟨Backend.sqlite, fun _ _ => [], fun _ => .ok []⟩ 7 200 []
    (by decide) rfl rfl (by decide)

/-! ## C1: recency of the aggregation per backend -/

/-- A state event of a tracked type with timestamp 1 (the older version). -/
def c1RowOld : Row :=
  ⟨true, "!r", "p.room_summary", some "", 1, "$old",
    .obj [("event_id", .str "$old"), ("content", .obj [("v", .str "old")])]⟩

/-- The same (room, type, state-key) triple with timestamp 2 (the most
recent version). -/
def c1RowNew : Row :=
  ⟨true, "!r", "p.room_summary", some "", 2, "$new",
    .obj [("event_id", .str "$new"), ("content", .obj [("v", .str "new")])]⟩

def c1Log : List Row := [c1RowOld, c1RowNew]

def c1Env (b : Backend) : PreviewEnv :=
  ⟨b, fun _ _ => [c1RowNew, c1RowOld], fun _ => .ok []⟩

def c1Config : SynapseRoomPreviewConfig := ⟨["p.room_summary"], 60, 10⟩

/-- C1 (failing on the SQLite branch): `[c1RowNew, c1RowOld]` is exactly
the row order the SQLite query's ORDER BY clause prescribes for this log
(timestamp descending within the triple), yet the SQLite row-processing
loop overwrites the payload entry on every row, so the *last* row — the
OLDEST event — wins, while the PostgreSQL `DISTINCT ON` branch keeps the
first row and returns the most recent event.  The two backends disagree,
and the SQLite branch violates the claimed most-recent semantics. -/
theorem C1_sqlite_branch_returns_oldest :
    ValidRows skeyNullsFirst c1Log ["!r"] ["p.room_summary"] [c1RowNew, c1RowOld] ∧
    (get_room_preview ["!r"] c1Config (c1Env .sqlite) 0 []).1 =
      [("!r", ⟨[("p.room_summary", [("default", c1RowOld.json)])], none⟩)] ∧
    (get_room_preview ["!r"] c1Config (c1Env .postgres) 0 []).1 =
      [("!r", ⟨[("p.room_summary", [("default", c1RowNew.json)])], none⟩)] ∧
    c1RowOld.origin_server_ts < c1RowNew.origin_server_ts ∧
    c1RowOld.json ≠ c1RowNew.json := by
  refine ⟨⟨?_, ?_⟩, ?_, ?_, ?_, ?_⟩
  · decide
  · decide
  · rfl
  · rfl
  · decide
  · decide

/-! ## C2: determinism of the aggregation under the ORDER BY contract -/

theorem charListLt_irrefl : ∀ l : List Char, charListLt l l = false := by
  intro l
  induction l with
  | nil => rfl
  | cons c cs ih =>
    rw [charListLt]
    rw [if_neg (lt_irrefl c.toNat), if_neg (lt_irrefl c.toNat)]
    exact ih

theorem charListLt_asymm : ∀ (l1 l2 : List Char),
    charListLt l1 l2 = true → charListLt l2 l1 = true → False := by
  intro l1
  induction l1 with
  | nil =>
    intro l2 h1 h2
    cases l2 with
    | nil => simp [charListLt] at h1
    | cons d ds => simp [charListLt] at h2
  | cons c cs ih =>
    intro l2 h1 h2
    cases l2 with
    | nil => simp [charListLt] at h1
    | cons d ds =>
      rw [charListLt] at h1 h2
      by_cases hcd : c.toNat < d.toNat
      · rw [if_pos hcd] at h1
        rw [if_neg (by omega), if_pos hcd] at h2
        simp at h2
      · by_cases hdc : d.toNat < c.toNat
        · rw [if_neg hcd, if_pos hdc] at h1
          simp at h1
        · rw [if_neg hcd, if_neg hdc] at h1
          rw [if_neg hdc, if_neg hcd] at h2
          exact ih ds h1 h2

theorem strLtb_irrefl (s : String) : strLtb s s = false := charListLt_irrefl s.data

theorem strLtb_asymm (s t : String) (h1 : strLtb s t = true)
    (h2 : strLtb t s = true) : False := charListLt_asymm s.data t.data h1 h2

/-- Two rows that compare both ways under the ORDER BY relation agree on
all four sort-key columns. -/
theorem rowLE_antisymm (enc : Option String → Bool × String) (a b : Row)
    (h1 : rowLE enc a b) (h2 : rowLE enc b a) :
    a.room_id = b.room_id ∧ a.etype = b.etype ∧
    enc a.state_key = enc b.state_key ∧
    a.origin_server_ts = b.origin_server_ts := by
  simp only [rowLE, rowLEb, Bool.or_eq_true, Bool.and_eq_true, beq_iff_eq,
    Bool.not_eq_true', decide_eq_true_eq] at h1 h2
  rcases h1 with hA | ⟨hr, h1⟩
  · exfalso
    rcases h2 with hA2 | ⟨hr2, _⟩
    · exact strLtb_asymm _ _ hA hA2
    · rw [hr2, strLtb_irrefl] at hA
      simp at hA
  rcases h2 with hA2 | ⟨_, h2⟩
  · exfalso
    rw [hr, strLtb_irrefl] at hA2
    simp at hA2
  refine ⟨hr, ?_⟩
  rcases h1 with hB | ⟨ht, h1⟩
  · exfalso
    rcases h2 with hB2 | ⟨ht2, _⟩
    · exact strLtb_asymm _ _ hB hB2
    · rw [ht2, strLtb_irrefl] at hB
      simp at hB
  rcases h2 with hB2 | ⟨_, h2⟩
  · exfalso
    rw [ht, strLtb_irrefl] at hB2
    simp at hB2
  refine ⟨ht, ?_⟩
  rcases h1 with ⟨hC1, hC2⟩ | ⟨hb1, h1⟩
  · exfalso
    rcases h2 with ⟨hD1, hD2⟩ | ⟨hb2, _⟩
    · rw [hC2] at hD1
      simp at hD1
    · rw [hb2] at hC2
      rw [hC2] at hC1
      simp at hC1
  rcases h2 with ⟨hD1, hD2⟩ | ⟨_, h2⟩
  · exfalso
    rw [hb1] at hD2
    rw [hD2] at hD1
    simp at hD1
  rcases h1 with hS | ⟨hs2, hts1⟩
  · exfalso
    rcases h2 with hS2 | ⟨hs2', _⟩
    · exact strLtb_asymm _ _ hS hS2
    · rw [hs2', strLtb_irrefl] at hS
      simp at hS
  rcases h2 with hS2 | ⟨_, hts2⟩
  · exfalso
    rw [hs2, strLtb_irrefl] at hS2
    simp at hS2
  refine ⟨Prod.ext hb1 hs2, ?_⟩
  omega

/-- A list is determined by its multiset of elements and sortedness, when
the order relation is antisymmetric on those elements. -/
theorem eq_of_sorted_perm_anti {α : Type} {r : α → α → Prop} :
    ∀ {l₁ l₂ : List α}, (∀ a ∈ l₁, ∀ b ∈ l₁, r a b → r b a → a = b) →
    l₁.Perm l₂ → l₁.Sorted r → l₂.Sorted r → l₁ = l₂ := by
  intro l₁
  induction l₁ with
  | nil =>
    intro l₂ _ p _ _
    rw [List.Perm.eq_nil p.symm]
  | cons a t ih =>
    intro l₂ anti p s₁ s₂
    cases l₂ with
    | nil => exact absurd (List.Perm.eq_nil p) (by simp)
    | cons b t₂ =>
      have hmem_b : b ∈ a :: t := p.symm.subset (List.mem_cons_self b t₂)
      have hmem_a : a ∈ b :: t₂ := p.subset (List.mem_cons_self a t)
      have hab : a = b := by
        rcases List.mem_cons.1 hmem_b with h | hbt
        · exact h.symm
        rcases List.mem_cons.1 hmem_a with h | hat
        · exact h
        · have rab : r a b := (List.sorted_cons.1 s₁).1 b hbt
          have rba : r b a := (List.sorted_cons.1 s₂).1 a hat
          exact anti a (List.mem_cons_self a t) b (List.mem_cons_of_mem a hbt) rab rba
      subst hab
      have pt : t.Perm t₂ := p.cons_inv
      have anti' : ∀ x ∈ t, ∀ y ∈ t, r x y → r y x → x = y :=
        fun x hx y hy => anti x (List.mem_cons_of_mem a hx) y (List.mem_cons_of_mem a hy)
      rw [ih anti' pt (List.sorted_cons.1 s₁).2 (List.sorted_cons.1 s₂).2]

theorem skeyNullsFirst_injective : ∀ x y : Option String,
    skeyNullsFirst x = skeyNullsFirst y → x = y := by
  intro x y h
  cases x <;> cases y <;> simp [skeyNullsFirst] at h ⊢
  exact h

theorem skeyNullsLast_injective : ∀ x y : Option String,
    skeyNullsLast x = skeyNullsLast y → x = y := by
  intro x y h
  cases x <;> cases y <;> simp [skeyNullsLast] at h ⊢
  exact h

/-- Tied rows for the C2 counterexample: same (room, type, state key) and
the same `origin_server_ts`, different event ids and bodies. -/
def c2RowA : Row :=
  ⟨true, "!r", "p.room_summary", some "", 5, "$a",
    .obj [("event_id", .str "$a"), ("content", .obj [("v", .str "a")])]⟩

def c2RowB : Row :=
  ⟨true, "!r", "p.room_summary", some "", 5, "$b",
    .obj [("event_id", .str "$b"), ("content", .obj [("v", .str "b")])]⟩

def c2Log : List Row := [c2RowA, c2RowB]

def c2Config : SynapseRoomPreviewConfig := ⟨["p.room_summary"], 60, 10⟩

/-- C2 counterexample: with two tracked state events of the same
(room, type, state-key) carrying identical `origin_server_ts`, BOTH row
orders are legal answers to the queries' ORDER BY clause (on either
backend's NULL ordering), yet row processing produces different payloads
depending on which order the database picks — there is no secondary
tie-break key, so the aggregation is not deterministic as claimed. -/
theorem C2_counterexample_tied_timestamps :
    ValidRows skeyNullsFirst c2Log ["!r"] ["p.room_summary"] [c2RowA, c2RowB] ∧
    ValidRows skeyNullsFirst c2Log ["!r"] ["p.room_summary"] [c2RowB, c2RowA] ∧
    ValidRows skeyNullsLast c2Log ["!r"] ["p.room_summary"] [c2RowA, c2RowB] ∧
    ValidRows skeyNullsLast c2Log ["!r"] ["p.room_summary"] [c2RowB, c2RowA] ∧
    processRows .sqlite [c2RowA, c2RowB] ["!r"] ≠
      processRows .sqlite [c2RowB, c2RowA] ["!r"] ∧
    processRows .postgres [c2RowA, c2RowB] ["!r"] ≠
      processRows .postgres [c2RowB, c2RowA] ["!r"] ∧
    (get_room_preview ["!r"] c2Config
        ⟨.sqlite, fun _ _ => [c2RowA, c2RowB], fun _ => .ok []⟩ 0 []).1 ≠
      (get_room_preview ["!r"] c2Config
        ⟨.sqlite, fun _ _ => [c2RowB, c2RowA], fun _ => .ok []⟩ 0 []).1 := by
  refine ⟨⟨by decide, by decide⟩, ⟨by decide, by decide⟩, ⟨by decide, by decide⟩,
    ⟨by decide, by decide⟩, by decide, by decide, by decide⟩

/-- C2 as amended: when no two selected rows of the same
(room, type, state-key) share a timestamp, the ORDER BY key is injective on
the selected rows, any two legal database orderings coincide, and
query-plus-row-processing is deterministic on either backend.  (The code
has no secondary tie-break key, so with tied timestamps the result depends
on the database's arbitrary row order; this hypothesis is what the
counterexample forces.) -/
theorem C2_amended_unique_ts_determinism :
    ∀ (enc : Option String → Bool × String) (log : List Row)
      (rooms etypes : List String) (rows1 rows2 : List Row),
      (∀ x y, enc x = enc y → x = y) →
      (∀ a ∈ selectedRows log rooms etypes, ∀ b ∈ selectedRows log rooms etypes,
        a.room_id = b.room_id → a.etype = b.etype → a.state_key = b.state_key →
        a.origin_server_ts = b.origin_server_ts → a = b) →
      ValidRows enc log rooms etypes rows1 →
      ValidRows enc log rooms etypes rows2 →
      rows1 = rows2 ∧
      ∀ (backend : Backend) (rtf : List String),
        processRows backend rows1 rtf = processRows backend rows2 rtf := by
  intro enc log rooms etypes rows1 rows2 henc huniq h1 h2
  obtain ⟨hp1, hs1⟩ := h1
  obtain ⟨hp2, hs2⟩ := h2
  have anti : ∀ a ∈ rows1, ∀ b ∈ rows1, rowLE enc a b → rowLE enc b a → a = b := by
    intro a ha b hb hab hba
    obtain ⟨e1, e2, e3, e4⟩ := rowLE_antisymm enc a b hab hba
    exact huniq a (hp1.subset ha) b (hp1.subset hb) e1 e2 (henc _ _ e3) e4
  have heq := eq_of_sorted_perm_anti anti (hp1.trans hp2.symm) hs1 hs2
  exact ⟨heq, fun backend rtf => by rw [heq]⟩

/-- Witness for the amended C2. -/
theorem C2_witness :
    ([⟨true, "!r", "p.room_summary", some "", 2, "$n", Json.null⟩,
      ⟨true, "!r", "p.room_summary", some "", 1, "$o", Json.null⟩] : List Row) =
      [⟨true, "!r", "p.room_summary", some "", 2, "$n", Json.null⟩,
       ⟨true, "!r", "p.room_summary", some "", 1, "$o", Json.null⟩] ∧
    ∀ (backend : Backend) (rtf : List String),
      processRows backend
        [⟨true, "!r", "p.room_summary", some "", 2, "$n", Json.null⟩,
         ⟨true, "!r", "p.room_summary", some "", 1, "$o", Json.null⟩] rtf =
      processRows backend
        [⟨true, "!r", "p.room_summary", some "", 2, "$n", Json.null⟩,
         ⟨true, "!r", "p.room_summary", some "", 1, "$o", Json.null⟩] rtf :=
  C2_amended_unique_ts_determinism skeyNullsFirst
    [⟨true, "!r", "p.room_summary", some "", 1, "$o", Json.null⟩,
     ⟨true, "!r", "p.room_summary", some "", 2, "$n", Json.null⟩]
    ["!r"] ["p.room_summary"]
    [⟨true, "!r", "p.room_summary", some "", 2, "$n", Json.null⟩,
     ⟨true, "!r", "p.room_summary", some "", 1, "$o", Json.null⟩]
    [⟨true, "!r", "p.room_summary", some "", 2, "$n", Json.null⟩,
     ⟨true, "!r", "p.room_summary", some "", 1, "$o", Json.null⟩]
    skeyNullsFirst_injective
    (by decide)
    ⟨by decide, by decide⟩
    ⟨by decide, by decide⟩

/-! ## C8: two runs differing only in one room's membership oracle

`ListRel rel R l l'` relates two association lists that are structurally
identical except that the values stored under key `R` need only be related
by `rel`. -/

def optRel (rel : α → α → Prop) : Option α → Option α → Prop
  | none, none => True
  | some a, some b => rel a b
  | _, _ => False

inductive ListRel (rel : α → α → Prop) (R : String) :
    List (String × α) → List (String × α) → Prop
  | nil : ListRel rel R [] []
  | cons_ne (k : String) (v : α) {l l' : List (String × α)} (hk : k ≠ R) :
      ListRel rel R l l' → ListRel rel R ((k, v) :: l) ((k, v) :: l')
  | cons_eq (v v' : α) {l l' : List (String × α)} (hv : rel v v') :
      ListRel rel R l l' → ListRel rel R ((R, v) :: l) ((R, v') :: l')

theorem ListRel.refl (rel : α → α → Prop) (R : String)
    (hrefl : ∀ v, rel v v) : ∀ l : List (String × α), ListRel rel R l l := by
  intro l
  induction l with
  | nil => exact ListRel.nil
  | cons e rest ih =>
    obtain ⟨k, v⟩ := e
    by_cases hk : k = R
    · subst hk
      exact ListRel.cons_eq v v (hrefl v) ih
    · exact ListRel.cons_ne k v hk ih

theorem ListRel.getKey?_ne {rel : α → α → Prop} {R : String}
    {l l' : List (String × α)} (h : ListRel rel R l l') :
    ∀ k, k ≠ R → getKey? l k = getKey? l' k := by
  induction h with
  | nil => intro k _; rfl
  | cons_ne k0 v hk0 _ ih =>
    intro k hk
    simp only [getKey?]
    by_cases h2 : k0 = k
    · rw [if_pos h2, if_pos h2]
    · rw [if_neg h2, if_neg h2]
      exact ih k hk
  | cons_eq v v' _ _ ih =>
    intro k hk
    simp only [getKey?]
    rw [if_neg (fun h2 => hk h2.symm), if_neg (fun h2 => hk h2.symm)]
    exact ih k hk

theorem ListRel.getKey?_R {rel : α → α → Prop} {R : String}
    {l l' : List (String × α)} (h : ListRel rel R l l') :
    optRel rel (getKey? l R) (getKey? l' R) := by
  induction h with
  | nil => exact trivial
  | cons_ne k0 v hk0 _ ih =>
    simp only [getKey?]
    rw [if_neg hk0, if_neg hk0]
    exact ih
  | cons_eq v v' hv _ _ =>
    simp only [getKey?, if_pos rfl]
    exact hv

theorem ListRel.setKey_ne {rel : α → α → Prop} {R : String}
    {l l' : List (String × α)} (h : ListRel rel R l l') (k : String)
    (hk : k ≠ R) (v : α) : ListRel rel R (setKey l k v) (setKey l' k v) := by
  induction h with
  | nil =>
    simp only [setKey]
    exact ListRel.cons_ne k v hk ListRel.nil
  | cons_ne k0 v0 hk0 h0 ih =>
    simp only [setKey]
    by_cases h2 : k0 = k
    · rw [if_pos h2, if_pos h2]
      exact ListRel.cons_ne k v hk h0
    · rw [if_neg h2, if_neg h2]
      exact ListRel.cons_ne k0 v0 hk0 ih
  | cons_eq v0 v0' hv h0 ih =>
    simp only [setKey]
    rw [if_neg (fun h2 => hk h2.symm), if_neg (fun h2 => hk h2.symm)]
    exact ListRel.cons_eq v0 v0' hv ih

theorem ListRel.setKey_R {rel : α → α → Prop} {R : String}
    {l l' : List (String × α)} (h : ListRel rel R l l') {v v' : α}
    (hv : rel v v') : ListRel rel R (setKey l R v) (setKey l' R v') := by
  induction h with
  | nil =>
    simp only [setKey]
    exact ListRel.cons_eq v v' hv ListRel.nil
  | cons_ne k0 v0 hk0 h0 ih =>
    simp only [setKey]
    rw [if_neg hk0, if_neg hk0]
    exact ListRel.cons_ne k0 v0 hk0 ih
  | cons_eq v0 v0' hv0 h0 _ =>
    simp only [setKey, if_pos rfl]
    exact ListRel.cons_eq v v' hv h0

theorem ListRel.filter {rel : α → α → Prop} {R : String}
    {l l' : List (String × α)} (h : ListRel rel R l l')
    (p : String × α → Bool)
    (hp : ∀ v v', rel v v' → p (R, v) = p (R, v')) :
    ListRel rel R (l.filter p) (l'.filter p) := by
  induction h with
  | nil => exact ListRel.nil
  | cons_ne k0 v0 hk0 h0 ih =>
    rw [List.filter_cons, List.filter_cons]
    by_cases h2 : p (k0, v0) = true
    · rw [if_pos h2, if_pos h2]
      exact ListRel.cons_ne k0 v0 hk0 ih
    · rw [if_neg h2, if_neg h2]
      exact ih
  | cons_eq v0 v0' hv0 h0 ih =>
    rw [List.filter_cons, List.filter_cons]
    have hpe := hp v0 v0' hv0
    by_cases h2 : p (R, v0) = true
    · rw [if_pos h2, if_pos (hpe ▸ h2)]
      exact ListRel.cons_eq v0 v0' hv0 ih
    · rw [if_neg h2, if_neg (hpe ▸ h2)]
      exact ih

/-- Relation between the payloads of one room across the two runs: the raw
state events agree, only the membership summary may differ. -/
def rdRel (d d' : RoomData) : Prop := d.events = d'.events

/-- Relation between cache entries across the two runs: related payloads
and the same timestamp. -/
def ceRel (p p' : RoomData × Nat) : Prop := rdRel p.1 p'.1 ∧ p.2 = p'.2

theorem ListRel.updateCachedData_ne {R : String} {c c' : Cache}
    (h : ListRel ceRel R c c') (k : String) (hk : k ≠ R) (d : RoomData) :
    ListRel ceRel R (updateCachedData c k d) (updateCachedData c' k d) := by
  induction h with
  | nil => exact ListRel.nil
  | cons_ne k0 v0 hk0 h0 ih =>
    rw [updateCachedData_cons, updateCachedData_cons]
    simp only
    by_cases h2 : k0 = k
    · rw [if_pos h2]
      exact ListRel.cons_ne k0 (d, v0.2) hk0 ih
    · rw [if_neg h2]
      exact ListRel.cons_ne k0 v0 hk0 ih
  | cons_eq v0 v0' hv0 h0 ih =>
    rw [updateCachedData_cons, updateCachedData_cons]
    simp only
    rw [if_neg (fun h2 : R = k => hk h2.symm), if_neg (fun h2 : R = k => hk h2.symm)]
    exact ListRel.cons_eq v0 v0' hv0 ih

theorem ListRel.updateCachedData_R {R : String} {c c' : Cache}
    (h : ListRel ceRel R c c') {d d' : RoomData} (hd : rdRel d d') :
    ListRel ceRel R (updateCachedData c R d) (updateCachedData c' R d') := by
  induction h with
  | nil => exact ListRel.nil
  | cons_ne k0 v0 hk0 h0 ih =>
    rw [updateCachedData_cons, updateCachedData_cons]
    simp only
    rw [if_neg hk0, if_neg hk0]
    exact ListRel.cons_ne k0 v0 hk0 ih
  | cons_eq v0 v0' hv0 h0 ih =>
    rw [updateCachedData_cons, updateCachedData_cons]
    simp only
    rw [if_pos trivial, if_pos trivial]
    exact ListRel.cons_eq _ _ ⟨hd, hv0.2⟩ ih

theorem get_cached_room_congr_ne {R : String} {c c' : Cache}
    (h : ListRel ceRel R c c') (now : Nat) (k : String) (hk : k ≠ R) :
    (get_cached_room now c k).1 = (get_cached_room now c' k).1 ∧
    ListRel ceRel R (get_cached_room now c k).2 (get_cached_room now c' k).2 := by
  have hkey := h.getKey?_ne k hk
  cases hg : getKey? c k with
  | none =>
    have hg2 : getKey? c' k = none := by rw [← hkey]; exact hg
    simp only [get_cached_room, hg, hg2]
    exact ⟨by trivial, h⟩
  | some p =>
    obtain ⟨dd, ts⟩ := p
    have hg2 : getKey? c' k = some (dd, ts) := by rw [← hkey]; exact hg
    simp only [get_cached_room, hg, hg2]
    by_cases hv : is_cache_valid now ts = true
    · rw [if_pos hv, if_pos hv]
      exact ⟨by trivial, h⟩
    · rw [if_neg hv, if_neg hv]
      exact ⟨by trivial,
        h.filter (fun e => !(decide (e.1 = k))) (fun v v' _ => rfl)⟩

theorem get_cached_room_congr_R {R : String} {c c' : Cache}
    (h : ListRel ceRel R c c') (now : Nat) :
    optRel rdRel (get_cached_room now c R).1 (get_cached_room now c' R).1 ∧
    ListRel ceRel R (get_cached_room now c R).2 (get_cached_room now c' R).2 := by
  have hkey := h.getKey?_R
  cases hg : getKey? c R with
  | none =>
    cases hg2 : getKey? c' R with
    | none =>
      simp only [get_cached_room, hg, hg2]
      exact ⟨trivial, h⟩
    | some p =>
      rw [hg, hg2] at hkey
      simp only [optRel] at hkey
  | some p =>
    cases hg2 : getKey? c' R with
    | none =>
      rw [hg, hg2] at hkey
      simp only [optRel] at hkey
    | some p' =>
      rw [hg, hg2] at hkey
      simp only [optRel] at hkey
      obtain ⟨d1, ts⟩ := p
      obtain ⟨d2, ts2⟩ := p'
      obtain ⟨hdd, hts⟩ := hkey
      simp only at hts
      subst hts
      simp only [get_cached_room, hg, hg2]
      by_cases hv : is_cache_valid now ts = true
      · rw [if_pos hv, if_pos hv]
        exact ⟨hdd, h⟩
      · rw [if_neg hv, if_neg hv]
        exact ⟨trivial,
          h.filter (fun e => !(decide (e.1 = R))) (fun v v' _ => rfl)⟩

theorem previewLoop_congr (R : String) (e1 e2 : PreviewEnv) (now : Nat)
    (hg : ∀ k, k ≠ R → e1.get_room_state k = e2.get_room_state k) :
    ∀ (rooms : List String) (result1 result2 : List (String × RoomData))
      (rtf : List String) (cache1 cache2 : Cache),
      ListRel rdRel R result1 result2 → ListRel ceRel R cache1 cache2 →
      ListRel rdRel R (previewLoop e1 now rooms result1 rtf cache1).1
        (previewLoop e2 now rooms result2 rtf cache2).1 ∧
      (previewLoop e1 now rooms result1 rtf cache1).2.1 =
        (previewLoop e2 now rooms result2 rtf cache2).2.1 ∧
      ListRel ceRel R (previewLoop e1 now rooms result1 rtf cache1).2.2
        (previewLoop e2 now rooms result2 rtf cache2).2.2 := by
  intro rooms
  induction rooms with
  | nil =>
    intro r1 r2 rtf c1 c2 hr hc
    exact ⟨hr, rfl, hc⟩
  | cons k rest ih =>
    intro r1 r2 rtf c1 c2 hr hc
    by_cases hk : k = R
    · subst hk
      obtain ⟨ho, hc2⟩ := get_cached_room_congr_R hc now
      rcases hgc1 : get_cached_room now c1 k with ⟨o1, cc1⟩
      rcases hgc2 : get_cached_room now c2 k with ⟨o2, cc2⟩
      rw [hgc1, hgc2] at ho hc2
      simp only at ho hc2
      cases o1 with
      | some d1 =>
        cases o2 with
        | some d2 =>
          simp only [optRel] at ho
          have hred1 : previewLoop e1 now (k :: rest) r1 rtf c1 =
              previewLoop e1 now rest
                (setKey r1 k (add_membership_summary d1
                  (get_membership_summary (e1.get_room_state k)))) rtf
                (updateCachedData cc1 k (add_membership_summary d1
                  (get_membership_summary (e1.get_room_state k)))) := by
            simp only [previewLoop, hgc1]
          have hred2 : previewLoop e2 now (k :: rest) r2 rtf c2 =
              previewLoop e2 now rest
                (setKey r2 k (add_membership_summary d2
                  (get_membership_summary (e2.get_room_state k)))) rtf
                (updateCachedData cc2 k (add_membership_summary d2
                  (get_membership_summary (e2.get_room_state k)))) := by
            simp only [previewLoop, hgc2]
          rw [hred1, hred2]
          have hdd : rdRel
              (add_membership_summary d1 (get_membership_summary (e1.get_room_state k)))
              (add_membership_summary d2 (get_membership_summary (e2.get_room_state k))) := by
            unfold rdRel
            rw [add_membership_summary_events, add_membership_summary_events]
            exact ho
          exact ih _ _ rtf _ _ (hr.setKey_R hdd) (hc2.updateCachedData_R hdd)
        | none => simp only [optRel] at ho
      | none =>
        cases o2 with
        | some d2 => simp only [optRel] at ho
        | none =>
          have hred1 : previewLoop e1 now (k :: rest) r1 rtf c1 =
              previewLoop e1 now rest r1 (rtf ++ [k]) cc1 := by
            simp only [previewLoop, hgc1]
          have hred2 : previewLoop e2 now (k :: rest) r2 rtf c2 =
              previewLoop e2 now rest r2 (rtf ++ [k]) cc2 := by
            simp only [previewLoop, hgc2]
          rw [hred1, hred2]
          exact ih _ _ _ _ _ hr hc2
    · obtain ⟨ho, hc2⟩ := get_cached_room_congr_ne hc now k hk
      rcases hgc1 : get_cached_room now c1 k with ⟨o1, cc1⟩
      rcases hgc2 : get_cached_room now c2 k with ⟨o2, cc2⟩
      rw [hgc1, hgc2] at ho hc2
      simp only at ho hc2
      subst ho
      cases o1 with
      | some d =>
        have hred1 : previewLoop e1 now (k :: rest) r1 rtf c1 =
            previewLoop e1 now rest
              (setKey r1 k (add_membership_summary d
                (get_membership_summary (e1.get_room_state k)))) rtf
              (updateCachedData cc1 k (add_membership_summary d
                (get_membership_summary (e1.get_room_state k)))) := by
          simp only [previewLoop, hgc1]
        have hred2 : previewLoop e2 now (k :: rest) r2 rtf c2 =
            previewLoop e2 now rest
              (setKey r2 k (add_membership_summary d
                (get_membership_summary (e1.get_room_state k)))) rtf
              (updateCachedData cc2 k (add_membership_summary d
                (get_membership_summary (e1.get_room_state k)))) := by
          simp only [previewLoop, hgc2, hg k hk]
        rw [hred1, hred2]
        exact ih _ _ rtf _ _ (hr.setKey_ne k hk _) (hc2.updateCachedData_ne k hk _)
      | none =>
        have hred1 : previewLoop e1 now (k :: rest) r1 rtf c1 =
            previewLoop e1 now rest r1 (rtf ++ [k]) cc1 := by
          simp only [previewLoop, hgc1]
        have hred2 : previewLoop e2 now (k :: rest) r2 rtf c2 =
            previewLoop e2 now rest r2 (rtf ++ [k]) cc2 := by
          simp only [previewLoop, hgc2]
        rw [hred1, hred2]
        exact ih _ _ _ _ _ hr hc2

theorem enrichAndCache_congr (R : String) (e1 e2 : PreviewEnv) (now : Nat)
    (hg : ∀ k, k ≠ R → e1.get_room_state k = e2.get_room_state k) :
    ∀ (fetched : FetchedMap) (r1 r2 : List (String × RoomData)) (c1 c2 : Cache),
      ListRel rdRel R r1 r2 → ListRel ceRel R c1 c2 →
      ListRel rdRel R (enrichAndCache e1 now fetched r1 c1).1
        (enrichAndCache e2 now fetched r2 c2).1 ∧
      ListRel ceRel R (enrichAndCache e1 now fetched r1 c1).2
        (enrichAndCache e2 now fetched r2 c2).2 := by
  intro fetched
  induction fetched with
  | nil =>
    intro r1 r2 c1 c2 hr hc
    exact ⟨hr, hc⟩
  | cons e rest ih =>
    intro r1 r2 c1 c2 hr hc
    obtain ⟨rid, em⟩ := e
    by_cases hrid : rid = R
    · subst hrid
      have hdd : rdRel
          (add_membership_summary ⟨em, none⟩
            (get_membership_summary (e1.get_room_state rid)))
          (add_membership_summary ⟨em, none⟩
            (get_membership_summary (e2.get_room_state rid))) := by
        unfold rdRel
        rw [add_membership_summary_events, add_membership_summary_events]
      have hce : ceRel
          (add_membership_summary ⟨em, none⟩
            (get_membership_summary (e1.get_room_state rid)), now)
          (add_membership_summary ⟨em, none⟩
            (get_membership_summary (e2.get_room_state rid)), now) := ⟨hdd, rfl⟩
      exact ih _ _ _ _ (hr.setKey_R hdd) (hc.setKey_R hce)
    · have hmseq : get_membership_summary (e1.get_room_state rid) =
          get_membership_summary (e2.get_room_state rid) := by
        rw [hg rid hrid]
      have hred : enrichAndCache e2 now ((rid, em) :: rest) r2 c2 =
          enrichAndCache e2 now rest
            (setKey r2 rid (add_membership_summary ⟨em, none⟩
              (get_membership_summary (e1.get_room_state rid))))
            (cache_room_data c2 rid (add_membership_summary ⟨em, none⟩
              (get_membership_summary (e1.get_room_state rid))) now) := by
        simp only [enrichAndCache, hmseq]
      rw [hred]
      exact ih _ _ _ _ (hr.setKey_ne rid hrid _) (hc.setKey_ne rid hrid _)

theorem get_room_preview_congr (R : String) (config : SynapseRoomPreviewConfig)
    (e1 e2 : PreviewEnv) (now : Nat) (cache : Cache) (rooms : List String)
    (hb : e1.backend = e2.backend) (hf : e1.fetch = e2.fetch)
    (hg : ∀ k, k ≠ R → e1.get_room_state k = e2.get_room_state k) :
    (∀ k, k ≠ R →
      getKey? (get_room_preview rooms config e1 now cache).1 k =
      getKey? (get_room_preview rooms config e2 now cache).1 k) ∧
    optRel rdRel (getKey? (get_room_preview rooms config e1 now cache).1 R)
      (getKey? (get_room_preview rooms config e2 now cache).1 R) ∧
    (get_room_preview rooms config e1 now cache).2.2 =
      (get_room_preview rooms config e2 now cache).2.2 := by
  by_cases hempty : rooms = [] ∨ config.room_preview_state_event_types = []
  · rw [get_room_preview, get_room_preview, if_pos hempty, if_pos hempty]
    exact ⟨fun k _ => rfl, trivial, rfl⟩
  · rw [get_room_preview, get_room_preview, if_neg hempty, if_neg hempty]
    have hstart := previewLoop_congr R e1 e2 now hg rooms [] []
      [] (cleanup_expired_cache now cache) (cleanup_expired_cache now cache)
      ListRel.nil (ListRel.refl ceRel R (fun v => ⟨rfl, rfl⟩) _)
    rcases hPd1 : previewLoop e1 now rooms [] [] (cleanup_expired_cache now cache)
      with ⟨R1, F1, C1⟩
    rcases hPd2 : previewLoop e2 now rooms [] [] (cleanup_expired_cache now cache)
      with ⟨R2, F2, C2⟩
    rw [hPd1, hPd2] at hstart
    simp only at hstart
    obtain ⟨hres, hrtf, hcache⟩ := hstart
    subst hrtf
    simp only [hPd1, hPd2]
    by_cases hF : F1 = []
    · rw [if_pos hF, if_pos hF]
      exact ⟨fun k hk => hres.getKey?_ne k hk, hres.getKey?_R, rfl⟩
    · rw [if_neg hF, if_neg hF]
      have hfetched : processRows e2.backend
          (e2.fetch F1 config.room_preview_state_event_types) F1 =
          processRows e1.backend
          (e1.fetch F1 config.room_preview_state_event_types) F1 := by
        rw [hb, hf]
      rw [hfetched]
      have hE := enrichAndCache_congr R e1 e2 now hg
        (processRows e1.backend (e1.fetch F1 config.room_preview_state_event_types) F1)
        R1 R2 C1 C2 hres hcache
      rcases hE1 : enrichAndCache e1 now
          (processRows e1.backend (e1.fetch F1 config.room_preview_state_event_types) F1)
          R1 C1 with ⟨res1, cc1⟩
      rcases hE2 : enrichAndCache e2 now
          (processRows e1.backend (e1.fetch F1 config.room_preview_state_event_types) F1)
          R2 C2 with ⟨res2, cc2⟩
      rw [hE1, hE2] at hE
      simp only at hE
      obtain ⟨hres2, _⟩ := hE
      simp only [hE1, hE2]
      exact ⟨fun k hk => hres2.getKey?_ne k hk, hres2.getKey?_R, by trivial⟩

/-! Invariant for C8: when the membership oracle fails for room R, every
payload the call produces under key R carries an empty membership summary
(whenever the summary key is attached at all). -/

def emptyIfAct (d : RoomData) : Prop :=
  ∀ ar, getKey? d.events PANGEA_ACTIVITY_ROLE_STATE_EVENT_TYPE = some ar →
    d.membership_summary = some []

theorem add_membership_summary_nil_emptyIfAct (d : RoomData) :
    emptyIfAct (add_membership_summary d []) := by
  intro ar har
  rw [add_membership_summary_events] at har
  simp only [add_membership_summary, har, List.filter_nil]

theorem previewLoop_error_inv (env : PreviewEnv) (R msg : String) (now : Nat)
    (herr : env.get_room_state R = .error msg) :
    ∀ (rooms : List String) (result : List (String × RoomData)) (rtf : List String)
      (cache : Cache),
      (∀ d, getKey? result R = some d → emptyIfAct d) →
      ∀ d, getKey? (previewLoop env now rooms result rtf cache).1 R = some d →
        emptyIfAct d := by
  intro rooms
  induction rooms with
  | nil => intro result rtf cache hinv d hd; exact hinv d hd
  | cons k rest ih =>
    intro result rtf cache hinv d hd
    rcases hgc : get_cached_room now cache k with ⟨o, cache2⟩
    cases o with
    | some dd =>
      have hred : previewLoop env now (k :: rest) result rtf cache =
          previewLoop env now rest
            (setKey result k (add_membership_summary dd
              (get_membership_summary (env.get_room_state k)))) rtf
            (updateCachedData cache2 k (add_membership_summary dd
              (get_membership_summary (env.get_room_state k)))) := by
        simp only [previewLoop, hgc]
      rw [hred] at hd
      refine ih _ _ _ ?_ d hd
      intro d2 hd2
      by_cases hk : k = R
      · subst hk
        rw [getKey?_setKey_self] at hd2
        cases hd2
        rw [herr]
        exact add_membership_summary_nil_emptyIfAct dd
      · rw [getKey?_setKey_ne _ _ (fun h => hk h.symm)] at hd2
        exact hinv d2 hd2
    | none =>
      have hred : previewLoop env now (k :: rest) result rtf cache =
          previewLoop env now rest result (rtf ++ [k]) cache2 := by
        simp only [previewLoop, hgc]
      rw [hred] at hd
      exact ih _ _ _ hinv d hd

theorem enrichAndCache_error_inv (env : PreviewEnv) (R msg : String) (now : Nat)
    (herr : env.get_room_state R = .error msg) :
    ∀ (fetched : FetchedMap) (result : List (String × RoomData)) (cache : Cache),
      (∀ d, getKey? result R = some d → emptyIfAct d) →
      ∀ d, getKey? (enrichAndCache env now fetched result cache).1 R = some d →
        emptyIfAct d := by
  intro fetched
  induction fetched with
  | nil => intro result cache hinv d hd; exact hinv d hd
  | cons e rest ih =>
    intro result cache hinv d hd
    obtain ⟨rid, em⟩ := e
    rw [show enrichAndCache env now ((rid, em) :: rest) result cache =
      enrichAndCache env now rest
        (setKey result rid (add_membership_summary ⟨em, none⟩
          (get_membership_summary (env.get_room_state rid))))
        (cache_room_data cache rid (add_membership_summary ⟨em, none⟩
          (get_membership_summary (env.get_room_state rid))) now) from rfl] at hd
    refine ih _ _ ?_ d hd
    intro d2 hd2
    by_cases hk : rid = R
    · subst hk
      rw [getKey?_setKey_self] at hd2
      cases hd2
      rw [herr]
      exact add_membership_summary_nil_emptyIfAct _
    · rw [getKey?_setKey_ne _ _ (fun h => hk h.symm)] at hd2
      exact hinv d2 hd2

theorem get_room_preview_error_inv (R msg : String)
    (config : SynapseRoomPreviewConfig) (env : PreviewEnv) (now : Nat)
    (cache : Cache) (rooms : List String)
    (herr : env.get_room_state R = .error msg) :
    ∀ d, getKey? (get_room_preview rooms config env now cache).1 R = some d →
      emptyIfAct d := by
  intro d hd
  by_cases hempty : rooms = [] ∨ config.room_preview_state_event_types = []
  · rw [get_room_preview, if_pos hempty] at hd
    simp [getKey?] at hd
  · rw [get_room_preview, if_neg hempty] at hd
    rcases hPd : previewLoop env now rooms [] [] (cleanup_expired_cache now cache)
      with ⟨R1, F1, C1⟩
    simp only [hPd] at hd
    have hploop := previewLoop_error_inv env R msg now herr rooms [] []
      (cleanup_expired_cache now cache) (by intro d2 hd2; simp [getKey?] at hd2)
    rw [hPd] at hploop
    simp only at hploop
    by_cases hF : F1 = []
    · rw [if_pos hF] at hd
      exact hploop d hd
    · rw [if_neg hF] at hd
      rcases hE : enrichAndCache env now
          (processRows env.backend (env.fetch F1 config.room_preview_state_event_types) F1)
          R1 C1 with ⟨res2, cc2⟩
      simp only [hE] at hd
      have := enrichAndCache_error_inv env R msg now herr
        (processRows env.backend (env.fetch F1 config.room_preview_state_event_types) F1)
        R1 C1 hploop
      rw [hE] at this
      exact this d hd

/-- C8: a failing membership lookup (host error) for one room is caught —
`get_membership_summary` totally returns the empty mapping on an error —
the affected room's payload keeps all its other fields with its
membership summary falling back to the empty mapping, and every other room
of the batch gets exactly the payload it would have gotten had the lookup
succeeded. -/
theorem C8_membership_failure_degrades_gracefully :
    (∀ msg : String, get_membership_summary (.error msg) = []) ∧
    (∀ (d : RoomData) (ar : List (String × Json)),
      getKey? d.events PANGEA_ACTIVITY_ROLE_STATE_EVENT_TYPE = some ar →
      (add_membership_summary d []).membership_summary = some []) ∧
    (∀ (R msg : String) (config : SynapseRoomPreviewConfig) (e1 e2 : PreviewEnv)
       (now : Nat) (cache : Cache) (rooms : List String),
      e1.backend = e2.backend → e1.fetch = e2.fetch →
      (∀ k, k ≠ R → e1.get_room_state k = e2.get_room_state k) →
      e1.get_room_state R = .error msg →
      ((∀ k, k ≠ R → getKey? (get_room_preview rooms config e1 now cache).1 k =
          getKey? (get_room_preview rooms config e2 now cache).1 k) ∧
       optRel rdRel (getKey? (get_room_preview rooms config e1 now cache).1 R)
         (getKey? (get_room_preview rooms config e2 now cache).1 R) ∧
       (∀ d, getKey? (get_room_preview rooms config e1 now cache).1 R = some d →
         ∀ ar, getKey? d.events PANGEA_ACTIVITY_ROLE_STATE_EVENT_TYPE = some ar →
           d.membership_summary = some []))) := by
  refine ⟨fun msg => rfl, ?_, ?_⟩
  · intro d ar har
    exact add_membership_summary_nil_emptyIfAct d ar
      (by rw [add_membership_summary_events]; exact har)
  · intro R msg config e1 e2 now cache rooms hb hf hg herr
    obtain ⟨h1, h2, _⟩ := get_room_preview_congr R config e1 e2 now cache rooms hb hf hg
    exact ⟨h1, h2,
      fun d hd => get_room_preview_error_inv R msg config e1 now cache rooms herr d hd⟩

/-- Witness for C8: a two-room batch where the membership lookup for room
`!x` raises while `!y`'s succeeds, compared against the run whose lookups
all succeed. -/
theorem C8_witness :
    (∀ k, k ≠ "!x" →
      getKey? (get_room_preview ["!x", "!y"] ⟨["p.room_summary"], 60, 10⟩
        ⟨Backend.sqlite, fun _ _ => [],
          fun k => if k = "!x" then .error "boom" else .ok []⟩ 0 []).1 k =
      getKey? (get_room_preview ["!x", "!y"] ⟨["p.room_summary"], 60, 10⟩
        ⟨Backend.sqlite, fun _ _ => [], fun _ => .ok []⟩ 0 []).1 k) ∧
    optRel rdRel
      (getKey? (get_room_preview ["!x", "!y"] ⟨["p.room_summary"], 60, 10⟩
        ⟨Backend.sqlite, fun _ _ => [],
          fun k => if k = "!x" then .error "boom" else .ok []⟩ 0 []).1 "!x")
      (getKey? (get_room_preview ["!x", "!y"] ⟨["p.room_summary"], 60, 10⟩
        ⟨Backend.sqlite, fun _ _ => [], fun _ => .ok []⟩ 0 []).1 "!x") ∧
    (∀ d, getKey? (get_room_preview ["!x", "!y"] ⟨["p.room_summary"], 60, 10⟩
        ⟨Backend.sqlite, fun _ _ => [],
          fun k => if k = "!x" then .error "boom" else .ok []⟩ 0 []).1 "!x" = some d →
      ∀ ar, getKey? d.events PANGEA_ACTIVITY_ROLE_STATE_EVENT_TYPE = some ar →
        d.membership_summary = some []) :=
  C8_membership_failure_degrades_gracefully.2.2 "!x" "boom"
    ⟨["p.room_summary"], 60, 10⟩
    ⟨Backend.sqlite, fun _ _ => [],
      fun k => if k = "!x" then .error "boom" else .ok []⟩
    ⟨Backend.sqlite, fun _ _ => [], fun _ => .ok []⟩ 0 [] ["!x", "!y"]
    rfl rfl
    (by intro k hk; simp only; rw [if_neg hk])
    (by simp)

end RoomPreview
